import Mathlib

/-!
# Verification of the BDH Brain Explorer analytics and maze-solving core

Shallow embedding of the Python backend:

* `src/backend/api/app.py` — the `pathfind` / `pathfind-model` endpoints and
  their inline breadth-first search;
* `src/backend/models/pathfinding_inference.py` — the greedy, cell-scored
  solver `BDHPathfindingSolver.solve`;
* `src/backend/models/pathfinding_inference_directions.py` — the greedy,
  direction-scored solver `BDHPathfindingSolverDirections.solve`;
* `src/backend/utils/state_extractor.py` — `extract_graph_topology`,
  `extract_activation_sparsity`, `extract_attention_flow`.

Conventions of the embedding:

* Python floats are embedded as exact rationals (`ℚ`); the claims under
  study are about the symbolic formulas, not float rounding.
* `numpy.std` returns a square root; the embedding carries the variance
  (the square of the standard deviation) instead, which is rational and
  computable.  `std = 0` iff `var = 0`, and these are the only facts about
  `std` the claims use.
* The torch model is the external collaborator of the spec: its logits
  enter as a function parameter (`score`), never as a concrete model.
* The two `networkx` community-detection calls
  (`greedy_modularity_communities`, `modularity`) are likewise external
  library collaborators: they are passed as function parameters `detect`
  and `modularityOf`; the embedding keeps explicit which graph is handed
  to them, which is all the claims about them require.
* Python `while` loops run on a fuel argument that provably never runs
  out (the fuel chosen in `bfs` dominates the loop's variant), so the
  fueled function agrees with the unbounded loop of the source.
-/

/-- A grid coordinate `(row, col)`, as the Python tuples `(i, j)`. -/
abbrev Pos := Int × Int

/-- `board[r][c]` with numpy-style integer indexing; out-of-range reads
return a default `0`, but every use below is bounds-checked first, as in
the source. -/
def cell (b : List (List Int)) (p : Pos) : Int :=
  (b.getD p.1.toNat []).getD p.2.toNat 0

/-- `0 <= row < board_size and 0 <= col < board_size` — the bounds check of
both solvers and of the BFS in `app.py`. -/
def inB (n : Nat) (p : Pos) : Bool :=
  decide (0 ≤ p.1) && decide (p.1 < (n : Int)) && decide (0 ≤ p.2) && decide (p.2 < (n : Int))

/-- A cell is passable when in bounds and not a wall (`board[r][c] != 1`). -/
def legalCell (b : List (List Int)) (n : Nat) (p : Pos) : Bool :=
  inB n p && decide (cell b p ≠ 1)

/-- Cardinal adjacency of two grid cells (one step up/down/left/right). -/
def adjB (p q : Pos) : Bool :=
  decide ((p.1 - q.1).natAbs + (p.2 - q.2).natAbs = 1)

/-- A legal walk as produced by the search loops: it starts at `s`, ends at
`t`, consecutive cells are cardinally adjacent, and every cell after the
first is in bounds and not a wall.  (The first cell is the start marker,
which no solver ever re-checks.) -/
def EntryPath (b : List (List Int)) (n : Nat) (s t : Pos) (ps : List Pos) : Prop :=
  ps.head? = some s ∧ ps.getLast? = some t ∧
    List.Chain' (fun p q => adjB p q = true) ps ∧
    ∀ c ∈ ps.tail, legalCell b n c = true

/-- A fully legal path: an `EntryPath` whose start cell is itself in bounds
and not a wall.  This is the "path of legal moves" of the specification. -/
def IsPath (b : List (List Int)) (n : Nat) (s t : Pos) (ps : List Pos) : Prop :=
  EntryPath b n s t ps ∧ legalCell b n s = true

/-- A kernel-computable decision procedure for adjacency chains (the
Mathlib `Chain'` instance is tactic-defined and blocks `decide`). -/
instance decChainAdj : ∀ ps : List Pos, Decidable (List.Chain' (fun p q => adjB p q = true) ps)
  | [] => isTrue List.chain'_nil
  | [_] => isTrue (List.chain'_singleton _)
  | p :: q :: rest =>
    if h1 : adjB p q = true then
      match decChainAdj (q :: rest) with
      | isTrue h2 => isTrue (List.chain'_cons.mpr ⟨h1, h2⟩)
      | isFalse h2 => isFalse fun hc => h2 (List.chain'_cons.mp hc).2
    else isFalse fun hc => h1 (List.chain'_cons.mp hc).1

instance (b : List (List Int)) (n : Nat) (s t : Pos) (ps : List Pos) :
    Decidable (EntryPath b n s t ps) :=
  inferInstanceAs (Decidable (ps.head? = some s ∧ ps.getLast? = some t ∧
    List.Chain' (fun p q => adjB p q = true) ps ∧
    ∀ c ∈ ps.tail, legalCell b n c = true))

instance (b : List (List Int)) (n : Nat) (s t : Pos) (ps : List Pos) :
    Decidable (IsPath b n s t ps) :=
  inferInstanceAs (Decidable (EntryPath b n s t ps ∧ legalCell b n s = true))

/-- The in-bounds cells of an `n × n` board, as a finite set. -/
def grid (n : Nat) : Finset Pos :=
  ((Finset.range n) ×ˢ (Finset.range n)).image (fun ij => ((ij.1 : Int), (ij.2 : Int)))

theorem mem_grid {n : Nat} {p : Pos} : p ∈ grid n ↔ inB n p = true := by
  constructor
  · intro hp
    simp only [grid, Finset.mem_image, Finset.mem_product, Finset.mem_range] at hp
    obtain ⟨⟨a, c⟩, ⟨ha, hc⟩, rfl⟩ := hp
    simp only [inB, Bool.and_eq_true, decide_eq_true_eq]
    omega
  · intro hp
    simp only [inB, Bool.and_eq_true, decide_eq_true_eq] at hp
    simp only [grid, Finset.mem_image, Finset.mem_product, Finset.mem_range]
    refine ⟨(p.1.toNat, p.2.toNat), ⟨by omega, by omega⟩, ?_⟩
    obtain ⟨p1, p2⟩ := p
    simp only [Prod.mk.injEq]
    omega

theorem card_grid (n : Nat) : (grid n).card = n * n := by
  rw [grid, Finset.card_image_of_injective, Finset.card_product, Finset.card_range]
  intro a b hab
  obtain ⟨a1, a2⟩ := a; obtain ⟨b1, b2⟩ := b
  simpa using hab

/-! ## Breadth-first search (`app.py`, `pathfind` / `pathfind-model`)

The source loop:

```
queue = deque([(start_pos, [start_pos])]); visited = {start_pos}
while queue:
    (row, col), path = queue.popleft()
    if (row, col) == end_pos: solution = path; break
    for dr, dc in [(0, 1), (1, 0), (0, -1), (-1, 0)]:
        new = (row + dr, col + dc)
        if in_bounds(new) and new not in visited and board[new] != 1:
            visited.add(new); queue.append((new, path + [new]))
```
-/

/-- The four expansion directions of the BFS, in source order:
right, down, left, up. -/
def bfsDirs : List Pos := [(0, 1), (1, 0), (0, -1), (-1, 0)]

/-- One direction of the BFS inner loop: enqueue `(row+dr, col+dc)` when it
is in bounds, unvisited and not a wall, marking it visited at enqueue
time. -/
def bfsTryDir (b : List (List Int)) (n : Nat) (p : Pos) (path : List Pos)
    (acc : List (Pos × List Pos) × Finset Pos) (d : Pos) :
    List (Pos × List Pos) × Finset Pos :=
  let np : Pos := (p.1 + d.1, p.2 + d.2)
  if inB n np = true ∧ np ∉ acc.2 ∧ cell b np ≠ 1 then
    (acc.1 ++ [(np, path ++ [np])], insert np acc.2)
  else acc

/-- The BFS inner `for dr, dc in ...` loop over the four directions. -/
def bfsExpand (b : List (List Int)) (n : Nat) (p : Pos) (path : List Pos)
    (queue : List (Pos × List Pos)) (visited : Finset Pos) :
    List (Pos × List Pos) × Finset Pos :=
  bfsDirs.foldl (bfsTryDir b n p path) (queue, visited)

/-- The BFS `while queue:` loop.  `fuel` is a bound on the remaining
iterations; `bfs` supplies one that provably dominates the loop variant
(`queue.length` plus the number of never-visited grid cells decreases by
exactly one per iteration), so the fuel never runs out before the queue
empties. -/
def bfsAux (b : List (List Int)) (n : Nat) (e : Pos) :
    Nat → List (Pos × List Pos) → Finset Pos → Option (List Pos)
  | 0, _, _ => none
  | _ + 1, [], _ => none
  | fuel + 1, (p, path) :: rest, visited =>
    if p = e then some path
    else
      let st := bfsExpand b n p path rest visited
      bfsAux b n e fuel st.1 st.2

/-- The inline BFS of the `pathfind` endpoints: board side
`board.shape[0]`, frontier seeded with `(start, [start])`, start marked
visited. -/
def bfs (b : List (List Int)) (s e : Pos) : Option (List Pos) :=
  bfsAux b b.length e (b.length * b.length + 1) [(s, [s])] {s}

/-- The start/end scan of both endpoints: for each cell in row-major
order, code `2` records the start and code `3` the end (a later
occurrence overwrites an earlier one). -/
def findPositions (b : List (List Int)) : Option Pos × Option Pos :=
  (List.range b.length).foldl
    (fun acc i =>
      (List.range b.length).foldl
        (fun acc2 j =>
          if cell b ((i : Int), (j : Int)) = 2 then (some ((i : Int), (j : Int)), acc2.2)
          else if cell b ((i : Int), (j : Int)) = 3 then (acc2.1, some ((i : Int), (j : Int)))
          else acc2)
        acc)
    (none, none)

/-- The path-relevant slice of the `POST /api/pathfind` endpoint.  The
model forward pass happens unconditionally before the start/end scan; its
output enters as the opaque `predictions` and is returned alongside the
solution.  When start or end is missing the endpoint does **not** fail:
`solution` simply stays `[]` and the response is still `ok`. -/
def pathfindEndpoint (predictions : List Int) (b : List (List Int)) :
    Except Nat (List Pos × List Int) :=
  let sp := findPositions b
  let solution : List Pos :=
    match sp with
    | (some s, some e) => (bfs b s e).getD []
    | _ => []
  Except.ok (solution, predictions)

/-- The validation-relevant slice of the `POST /api/pathfind-model`
endpoint: it scans for start/end **before** any path computation and
raises `HTTPException(400)` when either is missing; the surrounding
`except Exception` handler re-raises that as status `500`, which is the
status the caller observes. -/
def pathfindModelEndpoint (b : List (List Int)) : Except Nat (List Pos) :=
  match findPositions b with
  | (some s, some e) => Except.ok ((bfs b s e).getD [])
  | _ => Except.error 500

/-! ## Greedy cell-scored solver (`pathfinding_inference.py`)

`BDHPathfindingSolver.solve`: an iterative, non-backtracking walk bounded
by `max_steps`.  The constructor fixes `self.board_size = 10`; the
embedding keeps the board size as the explicit parameter `n`. -/

/-- `adjacent_cells` in source order: up, down, left, right. -/
def adjacentCells (p : Pos) : List Pos :=
  [(p.1 - 1, p.2), (p.1 + 1, p.2), (p.1, p.2 - 1), (p.1, p.2 + 1)]

/-- `_is_adjacent`: exactly one step away in exactly one direction. -/
def isAdjacent (p q : Pos) : Bool :=
  ((q.1 - p.1).natAbs = 1 && (q.2 - p.2).natAbs = 0) ||
    ((q.1 - p.1).natAbs = 0 && (q.2 - p.2).natAbs = 1)

/-- `_is_valid_move` of the cell-scored solver: in bounds, not a wall,
unvisited, and adjacent to the current position. -/
def isValidMove (n : Nat) (b : List (List Int)) (pos : Pos)
    (visited : Finset Pos) (current : Pos) : Bool :=
  inB n pos && decide (cell b pos ≠ 1) && decide (pos ∉ visited) && isAdjacent current pos

/-- Write value `v` at position `p` of a 2-d list (numpy `board[p] = v`). -/
def setCell (b : List (List Int)) (p : Pos) (v : Int) : List (List Int) :=
  b.set p.1.toNat ((b.getD p.1.toNat []).set p.2.toNat v)

/-- `_create_board_state`: copy the board, mark start `2`, end `3` and the
current position `4` (in that order, so `4` wins when positions collide),
then flatten row-major. -/
def createBoardState (b : List (List Int)) (current s e : Pos) : List Int :=
  (setCell (setCell (setCell b s 2) e 3) current 4).flatten

/-- Manhattan distance between two cells, as used in the combined score. -/
def manhattan (p q : Pos) : Nat :=
  (p.1 - q.1).natAbs + (p.2 - q.2).natAbs

/-- The candidate list of one greedy step, in source (up/down/left/right)
order, each candidate paired with its combined score
`-manhattan_dist + 0.1 * model_score`.  `score` is the model
collaborator: it receives the flattened board state (which marks the
**solver's current cell** as `4`) and the flat index
`next_pos[0] * board_size + next_pos[1]` of the candidate. -/
def validMovesScored (score : List Int → Int → ℚ) (n : Nat) (b : List (List Int))
    (current s e : Pos) (visited : Finset Pos) : List (Pos × ℚ) :=
  (adjacentCells current).filterMap fun np =>
    if isValidMove n b np visited current = true then
      some (np, -(manhattan np e : ℚ) +
        (1 / 10) * score (createBoardState b current s e) (np.1 * (n : Int) + np.2))
    else none

/-- Python's `list.sort(key=..., reverse=True)`: a stable descending sort
by key.  Insertion sort is stable with ties resolved in favour of the
earlier element, hence extensionally equal to the source's sort. -/
def sortDescBy {α β : Type} [LinearOrder β] (key : α → β) (l : List α) : List α :=
  List.insertionSort (fun a b => key b ≤ key a) l

/-- The `for step in range(max_steps)` loop of the cell-scored solver.
The fuel is exactly the remaining step budget; the fuel-0 case is the
post-loop `return None if current != end else path`. -/
def solveCellAux (score : List Int → Int → ℚ) (n : Nat) (b : List (List Int))
    (s e : Pos) : Nat → Pos → List Pos → Finset Pos → Option (List Pos)
  | 0, current, path, _ => if current = e then some path else none
  | fuel + 1, current, path, visited =>
    if current = e then some path
    else
      match sortDescBy Prod.snd (validMovesScored score n b current s e visited) with
      | [] => none
      | best :: _ =>
        solveCellAux score n b s e fuel best.1 (path ++ [best.1]) (insert best.1 visited)

/-- `BDHPathfindingSolver.solve`. -/
def solveCell (score : List Int → Int → ℚ) (n : Nat) (b : List (List Int))
    (s e : Pos) (maxSteps : Nat) : Option (List Pos) :=
  solveCellAux score n b s e maxSteps s [s] {s}

/-- Modelled from the spec (claim wording), for refinement comparison
only: the variant of the cell-scored step in which the model-input board
marks the **candidate** — not the solver's current position — with the
current-position code `4`.  The source (`_create_board_state(board,
current, start, end)` called with `current` = the solver's position)
does *not* do this. -/
def validMovesScoredClaimed (score : List Int → Int → ℚ) (n : Nat) (b : List (List Int))
    (current s e : Pos) (visited : Finset Pos) : List (Pos × ℚ) :=
  (adjacentCells current).filterMap fun np =>
    if isValidMove n b np visited current = true then
      some (np, -(manhattan np e : ℚ) +
        (1 / 10) * score (createBoardState b np s e) (np.1 * (n : Int) + np.2))
    else none

/-- Modelled from the spec (claim wording): the greedy cell-scored loop
with the candidate marked as current in the model input. -/
def solveCellClaimedAux (score : List Int → Int → ℚ) (n : Nat) (b : List (List Int))
    (s e : Pos) : Nat → Pos → List Pos → Finset Pos → Option (List Pos)
  | 0, current, path, _ => if current = e then some path else none
  | fuel + 1, current, path, visited =>
    if current = e then some path
    else
      match sortDescBy Prod.snd (validMovesScoredClaimed score n b current s e visited) with
      | [] => none
      | best :: _ =>
        solveCellClaimedAux score n b s e fuel best.1 (path ++ [best.1]) (insert best.1 visited)

/-- Modelled from the spec (claim wording): `solveCell` with the
candidate-marked model input. -/
def solveCellClaimed (score : List Int → Int → ℚ) (n : Nat) (b : List (List Int))
    (s e : Pos) (maxSteps : Nat) : Option (List Pos) :=
  solveCellClaimedAux score n b s e maxSteps s [s] {s}

/-! ## Greedy direction-scored solver (`pathfinding_inference_directions.py`) -/

/-- The `DIRECTIONS` table: `0 ↦ up, 1 ↦ down, 2 ↦ left, 3 ↦ right`. -/
def dirOf (i : Nat) : Pos :=
  [((-1 : Int), (0 : Int)), (1, 0), (0, -1), (0, 1)].getD i (0, 0)

/-- `_is_valid_move` of the direction-scored solver: in bounds, not a
wall, unvisited (no adjacency check — candidates are built from
directions). -/
def isValidMoveDir (n : Nat) (b : List (List Int)) (pos : Pos)
    (visited : Finset Pos) : Bool :=
  inB n pos && decide (cell b pos ≠ 1) && decide (pos ∉ visited)

/-- The stepping loop of the direction-scored solver: one model call per
step on the current board state, the four directions sorted by score
descending (stable), and the first direction landing on a valid cell is
taken. -/
def solveDirAux (score : List Int → Nat → ℚ) (n : Nat) (b : List (List Int))
    (s e : Pos) : Nat → Pos → List Pos → Finset Pos → Option (List Pos)
  | 0, current, path, _ => if current = e then some path else none
  | fuel + 1, current, path, visited =>
    if current = e then some path
    else
      match (sortDescBy Prod.snd ((List.range 4).map fun i =>
          (i, score (createBoardState b current s e) i))).find? (fun ds =>
          isValidMoveDir n b (current.1 + (dirOf ds.1).1, current.2 + (dirOf ds.1).2) visited) with
      | none => none
      | some ds =>
        solveDirAux score n b s e fuel
          (current.1 + (dirOf ds.1).1, current.2 + (dirOf ds.1).2)
          (path ++ [(current.1 + (dirOf ds.1).1, current.2 + (dirOf ds.1).2)])
          (insert (current.1 + (dirOf ds.1).1, current.2 + (dirOf ds.1).2) visited)

/-- `BDHPathfindingSolverDirections.solve`. -/
def solveDir (score : List Int → Nat → ℚ) (n : Nat) (b : List (List Int))
    (s e : Pos) (maxSteps : Nat) : Option (List Pos) :=
  solveDirAux score n b s e maxSteps s [s] {s}

/-! ## Graph topology (`state_extractor.py`, `extract_graph_topology`)

Matrix entries are rationals; `networkx` degree queries become counting
functions over the thresholded edge relation.  The two community calls
(`greedy_modularity_communities` and `modularity`) are external library
collaborators and enter as the parameters `detect` / `modularityOf`;
what the embedding keeps explicit — and what the claims are about — is
*which* graph is handed to them. -/

/-- The thresholded directed edge list, in the source's `i`-major
iteration order: an edge `(i, j)` with weight `Gx[i, j]` exactly when
`|Gx[i, j]| > threshold` (self-loops included). -/
def edgeList (M : Nat → Nat → ℚ) (n : Nat) (threshold : ℚ) : List (Nat × Nat × ℚ) :=
  (List.range n).flatMap fun i =>
    (List.range n).filterMap fun j =>
      if |M i j| > threshold then some (i, j, M i j) else none

/-- `G.in_degree(j)`: the number of thresholded edges into `j`. -/
def inDeg (M : Nat → Nat → ℚ) (n : Nat) (threshold : ℚ) (j : Nat) : Nat :=
  ((List.range n).filter fun i => decide (|M i j| > threshold)).length

/-- `G.out_degree(i)`: the number of thresholded edges out of `i`. -/
def outDeg (M : Nat → Nat → ℚ) (n : Nat) (threshold : ℚ) (i : Nat) : Nat :=
  ((List.range n).filter fun j => decide (|M i j| > threshold)).length

/-- `total_degrees[i] = in_degrees[i] + out_degrees[i]`. -/
def totalDeg (M : Nat → Nat → ℚ) (n : Nat) (threshold : ℚ) (i : Nat) : Nat :=
  inDeg M n threshold i + outDeg M n threshold i

/-- `degree_list = list(total_degrees.values())`, in node order `0..N-1`
(the insertion order of the dict comprehension). -/
def degreeList (M : Nat → Nat → ℚ) (n : Nat) (threshold : ℚ) : List Nat :=
  (List.range n).map (totalDeg M n threshold)

/-- Mean of a list of rationals (`np.mean`); callers guard emptiness. -/
def meanQ (l : List ℚ) : ℚ := l.sum / (l.length : ℚ)

/-- Population variance of a list of rationals: the square of `np.std`.
(`np.std` is the square root of this; `std = 0 ↔ var = 0`, which is the
only fact about `std` the claims use.) -/
def varQ (l : List ℚ) : ℚ := meanQ (l.map fun x => (x - meanQ l) ^ 2)

/-- `np.percentile(values, 90)` with the default linear interpolation:
sort ascending, let `pos = (m-1)*90/100`, and interpolate between the
neighbouring order statistics. -/
def percentile90 (l : List ℚ) : ℚ :=
  let ls := List.insertionSort (· ≤ ·) l
  let m := ls.length
  let pos : ℚ := ((m : ℚ) - 1) * 90 / 100
  let i : Nat := pos.floor.toNat
  let lo := ls.getD i 0
  let hi := ls.getD (i + 1) lo
  lo + (pos - (i : ℚ)) * (hi - lo)

/-- `G.to_undirected()`, as the set of undirected edges (each recorded
with its endpoints in increasing order; self-loops stay). -/
def undirectedProj (edges : List (Nat × Nat × ℚ)) : Finset (Nat × Nat) :=
  (edges.map fun e => (min e.1 e.2.1, max e.1 e.2.1)).toFinset

/-- One entry of the returned `nodes` list. -/
structure NodeRec where
  id : Nat
  degree : Nat
  in_degree : Nat
  out_degree : Nat
  is_hub : Bool
  deriving Repr, DecidableEq

/-- The returned `metrics` record.  `var_degree` is the square of the
source's `std_degree` (see `varQ`). -/
structure TopoMetrics where
  num_nodes : Nat
  num_edges : Nat
  avg_degree : ℚ
  max_degree : Nat
  min_degree : Nat
  var_degree : ℚ
  modularity : ℚ
  num_communities : Nat
  hub_threshold : ℚ
  num_hubs : Nat
  hubs : List Nat
  degree_distribution : List Nat
  deriving Repr, DecidableEq

/-- The full return value of `extract_graph_topology`. -/
structure TopoResult where
  nodes : List NodeRec
  edges : List (Nat × Nat × ℚ)
  metrics : TopoMetrics
  deriving Repr, DecidableEq

/-- The hub threshold: `np.percentile(degree_list, 90)` when the degree
list is nonempty, else `0`. -/
def hubThresholdOf (M : Nat → Nat → ℚ) (n : Nat) (threshold : ℚ) : ℚ :=
  if 0 < (degreeList M n threshold).length then
    percentile90 ((degreeList M n threshold).map (fun d : Nat => (d : ℚ)))
  else 0

/-- The hub list: nodes whose total degree reaches the 90th-percentile
threshold (`[]` when the degree list is empty, i.e. `n = 0`). -/
def hubsOf (M : Nat → Nat → ℚ) (n : Nat) (threshold : ℚ) : List Nat :=
  if 0 < (degreeList M n threshold).length then
    (List.range n).filter fun i =>
      decide ((totalDeg M n threshold i : ℚ) ≥ hubThresholdOf M n threshold)
  else []

/-- The retained node ids of the top-k branch:
`sorted(total_degrees.items(), key=deg, reverse=True)[:k]`, projected to
ids.  The sort is stable descending, so ties go to the lower node id. -/
def topNodeIds (M : Nat → Nat → ℚ) (n : Nat) (threshold : ℚ) (k : Nat) : List Nat :=
  ((sortDescBy (fun x => x.2) ((List.range n).map fun i =>
    (i, totalDeg M n threshold i))).take k).map Prod.fst

/-- One entry of the returned `nodes` list, with the original (full-graph)
degree values. -/
def mkNodeRec (M : Nat → Nat → ℚ) (n : Nat) (threshold : ℚ) (i : Nat) : NodeRec :=
  { id := i, degree := totalDeg M n threshold i, in_degree := inDeg M n threshold i,
    out_degree := outDeg M n threshold i, is_hub := decide (i ∈ hubsOf M n threshold) }

/-- `StateExtractor.extract_graph_topology`.

* `detect n undirected` stands for
  `list(nx.community.greedy_modularity_communities(G_undirected))`;
* `modularityOf undirected communities` stands for
  `nx.community.modularity(G_undirected, communities)`.

The Python builds the node list of the filtered branch by iterating the
*set* `top_node_ids` (whose iteration order is unspecified); the
embedding iterates the top-k list itself, which has the same members and
cardinality. -/
def extract_graph_topology {α : Type} (M : Nat → Nat → ℚ) (n : Nat) (threshold : ℚ)
    (top_k_nodes : Option Nat) (detect : Nat → Finset (Nat × Nat) → List α)
    (modularityOf : Finset (Nat × Nat) → List α → ℚ) : TopoResult :=
  let edges := edgeList M n threshold
  let degree_list := degreeList M n threshold
  let filtered : List (Nat × Nat × ℚ) × List NodeRec :=
    match top_k_nodes with
    | some k =>
      if k < n then
        (edges.filter fun e => decide (e.1 ∈ topNodeIds M n threshold k) &&
            decide (e.2.1 ∈ topNodeIds M n threshold k),
          (topNodeIds M n threshold k).map (mkNodeRec M n threshold))
      else (edges, (List.range n).map (mkNodeRec M n threshold))
    | none => (edges, (List.range n).map (mkNodeRec M n threshold))
  let undirected := undirectedProj edges
  let commPair : ℚ × Nat :=
    if 0 < edges.length then
      (modularityOf undirected (detect n undirected), (detect n undirected).length)
    else (0, 0)
  { nodes := filtered.2
    edges := filtered.1
    metrics :=
      { num_nodes := filtered.2.length
        num_edges := filtered.1.length
        avg_degree := if degree_list ≠ [] then meanQ (degree_list.map (fun d : Nat => (d : ℚ))) else 0
        max_degree := if degree_list ≠ [] then degree_list.foldr max 0 else 0
        min_degree := if h : degree_list ≠ [] then degree_list.foldr min (degree_list.head h) else 0
        var_degree := if degree_list ≠ [] then varQ (degree_list.map (fun d : Nat => (d : ℚ))) else 0
        modularity := commPair.1
        num_communities := commPair.2
        hub_threshold := hubThresholdOf M n threshold
        num_hubs := (hubsOf M n threshold).length
        hubs := hubsOf M n threshold
        degree_distribution := degree_list } }

/-! ## Activation sparsity (`state_extractor.py`, `extract_activation_sparsity`)

An activation tensor is a list of `L` layers, each a `T × N` matrix of
rationals.  `(x != 0).mean()` over a boolean numpy array is the number of
nonzero entries divided by the number of entries.  The raw heatmap /
per-neuron passthrough fields of the source (`y_heatmap`,
`y_neuron_metrics`) are data copies with no algorithmic content and are
not modelled. -/

/-- Number of entries of a matrix that are exactly nonzero. -/
def nonzeroCount (m : List (List ℚ)) : Nat :=
  (m.map fun row => (row.filter fun x => decide (x ≠ 0)).length).sum

/-- Number of entries of a matrix. -/
def entryCount (m : List (List ℚ)) : Nat :=
  (m.map List.length).sum

/-- `(y_stack[layer_idx] != 0).mean()` — the nonzero fraction of one
layer. -/
def layerSparsity (m : List (List ℚ)) : ℚ :=
  (nonzeroCount m : ℚ) / (entryCount m : ℚ)

/-- `(y_stack[:, token_idx, :] != 0).mean()` — the nonzero fraction of
the `L × N` slice at one sequence position. -/
def tokenSparsity (ys : List (List (List ℚ))) (t : Nat) : ℚ :=
  (((ys.map fun m => ((m.getD t []).filter fun x => decide (x ≠ 0)).length).sum : Nat) : ℚ) /
    (((ys.map fun m => (m.getD t []).length).sum : Nat) : ℚ)

/-- Return value of `extract_activation_sparsity`; `y_var_sparsity` /
`x_var_sparsity` are the squares of the source's `np.std` aggregates (see
`varQ`). -/
structure SparsityResult where
  y_sparsity_per_layer : List ℚ
  y_sparsity_per_token : List ℚ
  y_avg_sparsity : ℚ
  y_var_sparsity : ℚ
  x_sparsity_per_layer : Option (List ℚ)
  x_avg_sparsity : Option ℚ
  x_var_sparsity : Option ℚ
  deriving Repr, DecidableEq

/-- `StateExtractor.extract_activation_sparsity`.  The per-token loop
runs over `T = y_stack.shape[1]`, the (common) row count of the stacked
layers; the optional `x` stream gets its own per-layer and aggregate
values and does not affect the `y` aggregates. -/
def extract_activation_sparsity (ys : List (List (List ℚ)))
    (xs : Option (List (List (List ℚ)))) : SparsityResult :=
  let T := (ys.getD 0 []).length
  let yPerLayer := ys.map layerSparsity
  { y_sparsity_per_layer := yPerLayer
    y_sparsity_per_token := (List.range T).map (tokenSparsity ys)
    y_avg_sparsity := meanQ yPerLayer
    y_var_sparsity := varQ yPerLayer
    x_sparsity_per_layer := xs.map fun xa => (xa.take ys.length).map layerSparsity
    x_avg_sparsity := xs.map fun xa => meanQ ((xa.take ys.length).map layerSparsity)
    x_var_sparsity := xs.map fun xa => varQ ((xa.take ys.length).map layerSparsity) }

/-! ## Attention flow (`state_extractor.py`, `extract_attention_flow`)

Each layer's attention tensor is a `B × T × T` stack of matrices.
`np.argsort` is embedded as a stable ascending sort of the flat indices
by value (ties by ascending index, as the specification fixes). -/

/-- `a.mean(axis=0)`: the elementwise mean of the `B` matrices of one
layer's `(B, T, T)` attention tensor. -/
def batchMean (a : List (List (List ℚ))) : List (List ℚ) :=
  let B := a.length
  let T := (a.getD 0 []).length
  (List.range T).map fun i =>
    (List.range T).map fun j =>
      (a.map fun m => (m.getD i []).getD j 0).sum / (B : ℚ)

/-- `np.argsort(values)`: indices of `values` sorted by value ascending,
ties by ascending index (stable). -/
def argsortAsc (vals : List ℚ) : List Nat :=
  List.insertionSort (fun i j => vals.getD i 0 ≤ vals.getD j 0) (List.range vals.length)

/-- Python's `l[-k:]`: the last `k` elements (the whole list when
`k = 0`, since `l[-0:]` is `l[0:]`). -/
def lastK {α : Type} (k : Nat) (l : List α) : List α :=
  if k = 0 then l else l.drop (l.length - k)

/-- The per-layer top-k extraction: flatten the averaged `T × T` matrix,
take the `top_k` largest entries by raw value (the tail of the ascending
argsort) and decode `flat // T`, `flat % T` into `(source, target)`,
keeping the entry itself as the weight. -/
def topEdges (m : List (List ℚ)) (k : Nat) : List (Nat × Nat × ℚ) :=
  let T := m.length
  (lastK k (argsortAsc m.flatten)).map fun fi =>
    (fi / T, fi % T, (m.getD (fi / T) []).getD (fi % T) 0)

/-- Return value of `extract_attention_flow`. -/
structure AttentionFlow where
  attention_per_layer : List (List (List ℚ))
  attention_edges_per_layer : List (List (Nat × Nat × ℚ))
  avg_attention_per_layer : List ℚ
  deriving Repr, DecidableEq

/-- `StateExtractor.extract_attention_flow`: batch-average each layer,
then per layer the top-k edge list and the scalar mean
(`attn_stack.mean(axis=(1,2))`) of the averaged matrix. -/
def extract_attention_flow (attn : List (List (List (List ℚ)))) (topK : Nat) :
    AttentionFlow :=
  let stack := attn.map batchMean
  { attention_per_layer := stack
    attention_edges_per_layer := stack.map fun m => topEdges m topK
    avg_attention_per_layer := stack.map fun m => meanQ m.flatten }

/-- A straight staircase walk used only in proofs: first adjust the row
toward the target, then the column.  Its length is the Manhattan distance
plus one, realising the shortest possible path on a wall-free board. -/
def mkPath : Nat → Pos → Pos → List Pos
  | 0, sp, _ => [sp]
  | fuel + 1, sp, ep =>
    if sp = ep then [sp]
    else if sp.1 ≠ ep.1 then
      sp :: mkPath fuel (sp.1 + (if sp.1 < ep.1 then 1 else -1), sp.2) ep
    else
      sp :: mkPath fuel (sp.1, sp.2 + (if sp.2 < ep.2 then 1 else -1)) ep

/-! ## Concrete fixtures used by counterexamples and witnesses -/

/-- The concrete scenario board of the specification:
start `2` at `(1,0)`, end `3` at `(2,3)`, walls at `(0,2)`, `(1,2)`,
`(3,1)`. -/
def pathfindBoard : List (List Int) := [[0, 0, 1, 0], [2, 0, 1, 0], [0, 0, 0, 3], [0, 1, 0, 0]]

/-- A 2×2 all-open board with no start and no end code. -/
def board2x2open : List (List Int) := [[0, 0], [0, 0]]

/-- A 2×2 connectivity matrix whose only above-threshold entry (at
threshold `1/2`) is the self-loop `(0,0)`. -/
def M2 : Nat → Nat → ℚ := fun i j => if i = 0 ∧ j = 0 then 1 else 0

/-- The all-zero connectivity matrix. -/
def M0 : Nat → Nat → ℚ := fun _ _ => 0

/-- A concrete stand-in for the community-detection collaborator. -/
def detectTriv : Nat → Finset (Nat × Nat) → List Unit := fun _ _ => []

/-- A concrete stand-in for the modularity collaborator. -/
def modTriv : Finset (Nat × Nat) → List Unit → ℚ := fun _ _ => 0

/-- The concrete attention scenario of the specification: one layer,
batch 1, a 4×4 matrix with unique maximal entry `5` at query 0 / key 3
(and a large-magnitude negative entry `-9` at `(2,1)`, which raw-value
selection must ignore). -/
def attnC : List (List (List (List ℚ))) :=
  [[[[0, 0, 0, 5], [0, 0, 0, 0], [0, -9, 0, 0], [0, 0, 0, 0]]]]

/-- An attention fixture with batch 2, whose per-batch maxima average to
an entry at `(0,1)` of weight `3`. -/
def attnB2 : List (List (List (List ℚ))) :=
  [[[[0, 2], [0, 0]], [[0, 4], [0, 0]]]]

/-- A 2×2 board with start `(0,0)` and end `(1,1)`, used to separate the
source's greedy scoring (current cell marked `4`) from the claimed one
(candidate marked `4`). -/
def cellBoard2 : List (List Int) := [[2, 0], [0, 3]]

/-- A concrete model-score collaborator that reacts to which cell carries
the current-position marker `4`: flattened board `[4,0,0,3]` (current at
`(0,0)`) scores flat cell 1 highly, while `[2,0,4,3]` (current at
`(1,0)`) scores flat cell 2 highly. -/
def scoreC4 : List Int → Int → ℚ := fun bs idx =>
  if bs = [4, 0, 0, 3] ∧ idx = 1 then 100
  else if bs = [2, 0, 4, 3] ∧ idx = 2 then 100
  else 0

/-! # Theorems

Helper lemmas first, then one theorem per claim (with its witness or
counterexample where required). -/

/-! ## Stable-sort helpers -/

theorem sortDescBy_perm {α β : Type} [LinearOrder β] (key : α → β) (l : List α) :
    List.Perm (sortDescBy key l) l :=
  List.perm_insertionSort _ l

theorem sortDescBy_length {α β : Type} [LinearOrder β] (key : α → β) (l : List α) :
    (sortDescBy key l).length = l.length :=
  (sortDescBy_perm key l).length_eq

theorem sortDescBy_sorted {α β : Type} [LinearOrder β] (key : α → β) (l : List α) :
    (sortDescBy key l).Pairwise (fun a b => key b ≤ key a) := by
  have htot : IsTotal α (fun a b => key b ≤ key a) := ⟨fun a b => le_total (key b) (key a)⟩
  have htrans : IsTrans α (fun a b => key b ≤ key a) :=
    ⟨fun _ _ _ h1 h2 => le_trans h2 h1⟩
  exact List.sorted_insertionSort _ l

/-- The head of a stable descending sort is a maximal element. -/
theorem sortDescBy_head_max {α β : Type} [LinearOrder β] (key : α → β) (l : List α)
    (best : α) (rest : List α) (h : sortDescBy key l = best :: rest) :
    best ∈ l ∧ ∀ x ∈ l, key x ≤ key best := by
  have hperm := sortDescBy_perm key l
  constructor
  · exact hperm.mem_iff.mp (by rw [h]; exact List.mem_cons_self _ _)
  · intro x hx
    have hx' : x ∈ best :: rest := by rw [← h]; exact hperm.mem_iff.mpr hx
    rcases List.mem_cons.mp hx' with rfl | hx''
    · exact le_refl _
    · have hs := sortDescBy_sorted key l
      rw [h] at hs
      exact (List.pairwise_cons.mp hs).1 x hx''

/-! ## C2 — the concrete BFS scenario board -/

/-- C2, counterexample.  On the specification's scenario board the BFS of
`pathfind` returns the 5-cell path
`(1,0) → (1,1) → (2,1) → (2,2) → (2,3)`; it does not return a path
containing exactly 6 cells. -/
theorem C2_counterexample :
    bfs pathfindBoard (1, 0) (2, 3) = some [(1, 0), (1, 1), (2, 1), (2, 2), (2, 3)] ∧
      ¬ ∃ p, bfs pathfindBoard (1, 0) (2, 3) = some p ∧ p.length = 6 := by
  refine ⟨by decide, ?_⟩
  rintro ⟨p, hp, hlen⟩
  have heq : bfs pathfindBoard (1, 0) (2, 3) =
      some [(1, 0), (1, 1), (2, 1), (2, 2), (2, 3)] := by decide
  rw [heq] at hp
  cases hp
  simp at hlen

/-- C2, amended.  On the concrete board
`[[0,0,1,0],[2,0,1,0],[0,0,0,3],[0,1,0,0]]` the endpoint's scan finds
start `(1,0)` and end `(2,3)`, and breadth-first search returns a path
containing exactly **5** cells (the Manhattan distance 4 plus one; the
walls at `(0,2)`, `(1,2)`, `(3,1)` do not obstruct the straight route
through row 2). -/
theorem C2_amended :
    findPositions pathfindBoard = (some (1, 0), some (2, 3)) ∧
      ∃ p, bfs pathfindBoard (1, 0) (2, 3) = some p ∧ p.length = 5 := by
  refine ⟨by decide, [(1, 0), (1, 1), (2, 1), (2, 2), (2, 3)], by decide, by decide⟩

/-! ## C5 — invalid-input handling of the two pathfinding endpoints -/

/-- C5, counterexample.  The 2×2 all-open board has neither a start code
`2` nor an end code `3`, yet the `pathfind` endpoint reports **no**
error: it completes normally, returning an empty solution together with
the model's predictions (model inference has already run).  Only
`pathfind-model` rejects the board. -/
theorem C5_counterexample :
    pathfindEndpoint [7] board2x2open = Except.ok ([], [7]) ∧
      pathfindModelEndpoint board2x2open = Except.error 500 := by
  exact ⟨rfl, rfl⟩

/-- C5, amended.  For every board lacking a start code or lacking an end
code: `pathfind` does not report an error — model inference runs
unconditionally before the start/end scan and the endpoint returns a
normal response carrying the model's predictions and an empty solution —
while `pathfind-model` checks start/end before any path computation and
reports an invalid-input error (its `HTTPException(400)` is re-raised as
status 500 by the surrounding catch-all handler). -/
theorem C5_amended (predictions : List Int) (b : List (List Int))
    (h : (findPositions b).1 = none ∨ (findPositions b).2 = none) :
    pathfindEndpoint predictions b = Except.ok ([], predictions) ∧
      pathfindModelEndpoint b = Except.error 500 := by
  unfold pathfindEndpoint pathfindModelEndpoint
  rcases hfp : findPositions b with ⟨o1, o2⟩
  rw [hfp] at h
  rcases o1 with _ | s
  · rcases o2 with _ | e <;> exact ⟨rfl, rfl⟩
  · rcases o2 with _ | e
    · exact ⟨rfl, rfl⟩
    · simp at h

/-- C5, witness for the amended theorem at the concrete 2×2 open board. -/
theorem C5_witness :
    ((findPositions board2x2open).1 = none ∨ (findPositions board2x2open).2 = none) ∧
      (pathfindEndpoint [7] board2x2open = Except.ok ([], [7]) ∧
        pathfindModelEndpoint board2x2open = Except.error 500) :=
  ⟨Or.inl rfl, C5_amended [7] board2x2open (Or.inl rfl)⟩

/-! ## Degenerate-graph helpers (C9, C3, C6) -/

theorem mem_edgeList {M : Nat → Nat → ℚ} {n : Nat} {t : ℚ} {e : Nat × Nat × ℚ} :
    e ∈ edgeList M n t ↔ e.1 < n ∧ e.2.1 < n ∧ t < |M e.1 e.2.1| ∧ e.2.2 = M e.1 e.2.1 := by
  obtain ⟨i, j, w⟩ := e
  simp only [edgeList, List.mem_flatMap, List.mem_filterMap, List.mem_range]
  constructor
  · rintro ⟨a, ha, b, hb, hab⟩
    by_cases hc : t < |M a b|
    · rw [if_pos hc] at hab
      simp only [Option.some.injEq, Prod.mk.injEq] at hab
      obtain ⟨rfl, rfl, rfl⟩ := hab
      exact ⟨ha, hb, hc, rfl⟩
    · rw [if_neg hc] at hab; cases hab
  · rintro ⟨hi, hj, hc, rfl⟩
    exact ⟨i, hi, j, hj, by rw [if_pos hc]⟩

theorem no_edges_entries {M : Nat → Nat → ℚ} {n : Nat} {t : ℚ}
    (he : edgeList M n t = []) : ∀ i j, i < n → j < n → ¬ t < |M i j| := by
  intro i j hi hj hc
  have : (i, j, M i j) ∈ edgeList M n t := mem_edgeList.mpr ⟨hi, hj, hc, rfl⟩
  rw [he] at this
  cases this

theorem totalDeg_of_no_edges {M : Nat → Nat → ℚ} {n : Nat} {t : ℚ}
    (he : edgeList M n t = []) {i : Nat} (hi : i < n) : totalDeg M n t i = 0 := by
  have h := no_edges_entries he
  have h1 : inDeg M n t i = 0 := by
    rw [inDeg, List.length_eq_zero, List.filter_eq_nil_iff]
    intro a ha
    simp only [List.mem_range] at ha
    simpa using h a i ha hi
  have h2 : outDeg M n t i = 0 := by
    rw [outDeg, List.length_eq_zero, List.filter_eq_nil_iff]
    intro a ha
    simp only [List.mem_range] at ha
    simpa using h i a hi ha
  rw [totalDeg, h1, h2]

theorem degreeList_of_no_edges {M : Nat → Nat → ℚ} {n : Nat} {t : ℚ}
    (he : edgeList M n t = []) : degreeList M n t = List.replicate n 0 := by
  rw [List.eq_replicate_iff]
  refine ⟨by simp [degreeList], ?_⟩
  intro b hb
  rw [degreeList] at hb
  obtain ⟨i, hi, rfl⟩ := List.mem_map.mp hb
  exact totalDeg_of_no_edges he (List.mem_range.mp hi)

theorem meanQ_all_zero {l : List ℚ} (h : ∀ x ∈ l, x = 0) : meanQ l = 0 := by
  rw [meanQ, List.sum_eq_zero h, zero_div]

theorem varQ_all_zero {l : List ℚ} (h : ∀ x ∈ l, x = 0) : varQ l = 0 := by
  rw [varQ]
  apply meanQ_all_zero
  intro x hx
  obtain ⟨y, hy, rfl⟩ := List.mem_map.mp hx
  rw [h y hy, meanQ_all_zero h]
  ring

theorem foldr_max_zero {l : List Nat} (h : ∀ x ∈ l, x = 0) : l.foldr max 0 = 0 := by
  induction l with
  | nil => rfl
  | cons a l ih =>
    rw [List.foldr_cons, h a (List.mem_cons_self _ _),
      ih fun x hx => h x (List.mem_cons_of_mem _ hx)]
    simp

theorem foldr_min_zero {l : List Nat} (h : ∀ x ∈ l, x = 0) : l.foldr min 0 = 0 := by
  induction l with
  | nil => rfl
  | cons a l ih =>
    rw [List.foldr_cons, h a (List.mem_cons_self _ _),
      ih fun x hx => h x (List.mem_cons_of_mem _ hx)]
    simp

theorem getD_all_zero {l : List ℚ} (h : ∀ x ∈ l, x = 0) (i : Nat) : l.getD i 0 = 0 := by
  induction l generalizing i with
  | nil => cases i <;> rfl
  | cons a l ih =>
    cases i with
    | zero => exact h a (List.mem_cons_self _ _)
    | succ i => exact ih (fun x hx => h x (List.mem_cons_of_mem _ hx)) i

theorem percentile90_all_zero {l : List ℚ} (h : ∀ x ∈ l, x = 0) : percentile90 l = 0 := by
  rw [percentile90]
  have hs : ∀ x ∈ List.insertionSort (· ≤ ·) l, x = 0 := fun x hx =>
    h x ((List.perm_insertionSort _ l).mem_iff.mp hx)
  simp only [getD_all_zero hs]
  ring


/-! ## Field views of `extract_graph_topology` -/

/-- The metrics record's degree statistics, hub fields and degree
distribution are all computed from the full, unfiltered degree list of
all `N` nodes, whatever `top_k_nodes` is. -/
theorem topo_fields {α : Type} (M : Nat → Nat → ℚ) (n : Nat) (t : ℚ)
    (topK : Option Nat) (detect : Nat → Finset (Nat × Nat) → List α)
    (modOf : Finset (Nat × Nat) → List α → ℚ) :
    (extract_graph_topology M n t topK detect modOf).metrics.degree_distribution =
        degreeList M n t ∧
      (extract_graph_topology M n t topK detect modOf).metrics.avg_degree =
        (if degreeList M n t ≠ [] then
          meanQ ((degreeList M n t).map (fun d : Nat => (d : ℚ))) else 0) ∧
      (extract_graph_topology M n t topK detect modOf).metrics.var_degree =
        (if degreeList M n t ≠ [] then
          varQ ((degreeList M n t).map (fun d : Nat => (d : ℚ))) else 0) ∧
      (extract_graph_topology M n t topK detect modOf).metrics.max_degree =
        (if degreeList M n t ≠ [] then (degreeList M n t).foldr max 0 else 0) ∧
      (extract_graph_topology M n t topK detect modOf).metrics.hubs = hubsOf M n t ∧
      (extract_graph_topology M n t topK detect modOf).metrics.hub_threshold =
        hubThresholdOf M n t ∧
      (extract_graph_topology M n t topK detect modOf).metrics.num_hubs =
        (hubsOf M n t).length :=
  ⟨rfl, rfl, rfl, rfl, rfl, rfl, rfl⟩

/-- The reported minimum degree is the fold of `min` over the unfiltered
degree list, seeded with its head (`np.min` over all `N` nodes), whatever
`top_k_nodes` is. -/
theorem topo_min_field {α : Type} (M : Nat → Nat → ℚ) (n : Nat) (t : ℚ)
    (topK : Option Nat) (detect : Nat → Finset (Nat × Nat) → List α)
    (modOf : Finset (Nat × Nat) → List α → ℚ) :
    (extract_graph_topology M n t topK detect modOf).metrics.min_degree =
      (if h : degreeList M n t ≠ [] then
        (degreeList M n t).foldr min ((degreeList M n t).head h) else 0) :=
  rfl

/-- The modularity and community count reported come from the collaborator
applied to the undirected projection of the **unfiltered** edge list (or
are `0` when there are no edges at all), whatever `top_k_nodes` is. -/
theorem topo_community_fields {α : Type} (M : Nat → Nat → ℚ) (n : Nat) (t : ℚ)
    (topK : Option Nat) (detect : Nat → Finset (Nat × Nat) → List α)
    (modOf : Finset (Nat × Nat) → List α → ℚ) :
    (extract_graph_topology M n t topK detect modOf).metrics.modularity =
        (if 0 < (edgeList M n t).length then
          modOf (undirectedProj (edgeList M n t)) (detect n (undirectedProj (edgeList M n t)))
        else 0) ∧
      (extract_graph_topology M n t topK detect modOf).metrics.num_communities =
        (if 0 < (edgeList M n t).length then
          (detect n (undirectedProj (edgeList M n t))).length
        else 0) := by
  by_cases h : 0 < (edgeList M n t).length <;>
    exact ⟨by simp [extract_graph_topology, h], by simp [extract_graph_topology, h]⟩

/-- The node and edge lists of the filtered (`top_k_nodes = k < N`)
branch. -/
theorem topo_filtered {α : Type} (M : Nat → Nat → ℚ) (n : Nat) (t : ℚ)
    (k : Nat) (hk : k < n) (detect : Nat → Finset (Nat × Nat) → List α)
    (modOf : Finset (Nat × Nat) → List α → ℚ) :
    (extract_graph_topology M n t (some k) detect modOf).nodes =
        (topNodeIds M n t k).map (mkNodeRec M n t) ∧
      (extract_graph_topology M n t (some k) detect modOf).edges =
        (edgeList M n t).filter fun e => decide (e.1 ∈ topNodeIds M n t k) &&
          decide (e.2.1 ∈ topNodeIds M n t k) := by
  constructor <;> simp [extract_graph_topology, hk]

/-! ## Zero-edge degenerate behaviour (C9) -/

theorem hubThresholdOf_no_edges {M : Nat → Nat → ℚ} {n : Nat} {t : ℚ}
    (he : edgeList M n t = []) : hubThresholdOf M n t = 0 := by
  rw [hubThresholdOf]
  split
  · apply percentile90_all_zero
    intro x hx
    rw [degreeList_of_no_edges he, List.map_replicate] at hx
    have := List.eq_of_mem_replicate hx
    simpa using this
  · rfl

theorem hubsOf_no_edges {M : Nat → Nat → ℚ} {n : Nat} {t : ℚ}
    (he : edgeList M n t = []) : hubsOf M n t = List.range n := by
  rw [hubsOf]
  split
  · rw [List.filter_eq_self]
    intro i hi
    rw [hubThresholdOf_no_edges he, totalDeg_of_no_edges he (List.mem_range.mp hi)]
    simp
  · next h =>
      have hlen : (degreeList M n t).length = n := by
        rw [degreeList_of_no_edges he]; simp
      have : n = 0 := by omega
      rw [this]
      rfl

/-- The zero-edge behaviour of `extract_graph_topology`, shared by the C9
theorems: every degree statistic, the modularity and the community count
are zero, and the hub list is *all* of `0..n-1` (the 90th percentile of
an all-zero degree distribution is `0`, which every node reaches). -/
theorem zero_edges_topology {α : Type} (M : Nat → Nat → ℚ) (n : Nat) (t : ℚ)
    (topK : Option Nat) (detect : Nat → Finset (Nat × Nat) → List α)
    (modOf : Finset (Nat × Nat) → List α → ℚ)
    (he : edgeList M n t = []) :
    (extract_graph_topology M n t topK detect modOf).metrics.num_edges = 0 ∧
    (extract_graph_topology M n t topK detect modOf).metrics.avg_degree = 0 ∧
    (extract_graph_topology M n t topK detect modOf).metrics.max_degree = 0 ∧
    (extract_graph_topology M n t topK detect modOf).metrics.min_degree = 0 ∧
    (extract_graph_topology M n t topK detect modOf).metrics.var_degree = 0 ∧
    (extract_graph_topology M n t topK detect modOf).metrics.modularity = 0 ∧
    (extract_graph_topology M n t topK detect modOf).metrics.num_communities = 0 ∧
    (extract_graph_topology M n t topK detect modOf).metrics.hub_threshold = 0 ∧
    (extract_graph_topology M n t topK detect modOf).metrics.hubs = List.range n ∧
    (extract_graph_topology M n t topK detect modOf).metrics.num_hubs = n ∧
    (n = 0 → (extract_graph_topology M n t topK detect modOf).nodes = []) := by
  have hd := degreeList_of_no_edges he
  have hall : ∀ x ∈ (degreeList M n t).map (fun d : Nat => (d : ℚ)), x = 0 := by
    intro x hx
    rw [hd, List.map_replicate] at hx
    have := List.eq_of_mem_replicate hx
    simpa using this
  have hdz : ∀ x ∈ degreeList M n t, x = 0 := by
    intro x hx; rw [hd] at hx; exact List.eq_of_mem_replicate hx
  obtain ⟨hdist, havg, hvar, hmax, hhubs, hthr, hnum⟩ := topo_fields M n t topK detect modOf
  obtain ⟨hmod, hcomm⟩ := topo_community_fields M n t topK detect modOf
  refine ⟨?_, ?_, ?_, ?_, ?_, ?_, ?_, ?_, ?_, ?_, ?_⟩
  · show (extract_graph_topology M n t topK detect modOf).metrics.num_edges = 0
    unfold extract_graph_topology
    rcases topK with _ | k
    · simp [he]
    · by_cases hk : k < n <;> simp [he, hk]
  · rw [havg]
    split
    · exact meanQ_all_zero hall
    · rfl
  · rw [hmax]
    split
    · exact foldr_max_zero hdz
    · rfl
  · show (extract_graph_topology M n t topK detect modOf).metrics.min_degree = 0
    show (if h : degreeList M n t ≠ [] then
        (degreeList M n t).foldr min ((degreeList M n t).head h) else 0) = 0
    split
    · next hnil =>
        rw [show (degreeList M n t).head hnil = 0 from hdz _ (List.head_mem hnil)]
        exact foldr_min_zero hdz
    · rfl
  · rw [hvar]
    split
    · exact varQ_all_zero hall
    · rfl
  · rw [hmod, he]; rfl
  · rw [hcomm, he]; rfl
  · rw [hthr]; exact hubThresholdOf_no_edges he
  · rw [hhubs]; exact hubsOf_no_edges he
  · rw [hnum, hubsOf_no_edges he]; simp
  · intro hn; subst hn
    unfold extract_graph_topology
    rcases topK with _ | k
    · simp
    · simp [topNodeIds]

/-! ## C9 — degenerate inputs of `extract_graph_topology` -/

/-- C9, counterexample.  The 1×1 all-zero matrix (with threshold `2`)
yields a zero-edge graph, yet the hub set is **not** empty: the hub
threshold degenerates to `0`, every node reaches it, and node `0` is
reported as a hub. -/
theorem C9_counterexample :
    (extract_graph_topology M0 1 2 none detectTriv modTriv).metrics.num_edges = 0 ∧
      (extract_graph_topology M0 1 2 none detectTriv modTriv).metrics.hubs = [0] ∧
      (extract_graph_topology M0 1 2 none detectTriv modTriv).metrics.num_hubs = 1 ∧
      (extract_graph_topology M0 1 2 none detectTriv modTriv).metrics.hubs ≠ [] := by
  have he : edgeList M0 1 2 = [] := by decide
  obtain ⟨h1, _, _, _, _, _, _, _, h9, h10, _⟩ :=
    zero_edges_topology M0 1 2 none detectTriv modTriv he
  refine ⟨h1, ?_, h10, ?_⟩
  · rw [h9]; rfl
  · rw [h9]; simp

/-- C9, amended.  For every matrix whose thresholding yields zero edges
(including every 0×0 matrix), `extract_graph_topology` returns normally
— the embedding is a total function, as the source's guarded branches
never raise — and reports zero-valued degree statistics (mean, max, min
and standard deviation all `0`), modularity `0.0`, zero communities and
hub threshold `0`.  The hub set, however, is empty only for the 0×0
matrix: for a zero-edge matrix with `n ≥ 1` nodes **every** node reaches
the degenerate threshold `0` and the hub set is all of `0..n-1`. -/
theorem C9_amended {α : Type} (M : Nat → Nat → ℚ) (n : Nat) (t : ℚ) (topK : Option Nat)
    (detect : Nat → Finset (Nat × Nat) → List α) (modOf : Finset (Nat × Nat) → List α → ℚ)
    (he : edgeList M n t = []) :
    (extract_graph_topology M n t topK detect modOf).metrics.num_edges = 0 ∧
    (extract_graph_topology M n t topK detect modOf).metrics.avg_degree = 0 ∧
    (extract_graph_topology M n t topK detect modOf).metrics.max_degree = 0 ∧
    (extract_graph_topology M n t topK detect modOf).metrics.min_degree = 0 ∧
    (extract_graph_topology M n t topK detect modOf).metrics.var_degree = 0 ∧
    (extract_graph_topology M n t topK detect modOf).metrics.modularity = 0 ∧
    (extract_graph_topology M n t topK detect modOf).metrics.num_communities = 0 ∧
    (extract_graph_topology M n t topK detect modOf).metrics.hub_threshold = 0 ∧
    (extract_graph_topology M n t topK detect modOf).metrics.hubs = List.range n ∧
    (extract_graph_topology M n t topK detect modOf).metrics.num_hubs = n ∧
    (n = 0 → (extract_graph_topology M n t topK detect modOf).nodes = []) :=
  zero_edges_topology M n t topK detect modOf he

/-- C9, witness: the amended theorem applied to the 1×1 zero matrix. -/
theorem C9_witness :
    edgeList M0 1 2 = [] ∧
      (extract_graph_topology M0 1 2 none detectTriv modTriv).metrics.num_hubs = 1 :=
  ⟨by decide, (C9_amended M0 1 2 none detectTriv modTriv (by decide)).2.2.2.2.2.2.2.2.2.1⟩

/-! ## C3 — what the metrics of the filtered graph actually reflect -/

/-- C3, counterexample.  Matrix `M2` (single above-threshold entry: the
self-loop at node 0) with `top_k_nodes = 1`: the retained node is node 0
with original degree 2, so the claim's "degree statistics computed on the
degree values of exactly the k retained nodes" would give average degree
`2`; the code reports `1`, the mean over **all** `N = 2` nodes. -/
theorem C3_counterexample :
    (extract_graph_topology M2 2 0 (some 1) detectTriv modTriv).nodes.map NodeRec.degree
        = [2] ∧
      (extract_graph_topology M2 2 0 (some 1) detectTriv modTriv).metrics.avg_degree = 1 ∧
      ¬ (extract_graph_topology M2 2 0 (some 1) detectTriv modTriv).metrics.avg_degree =
        meanQ (((extract_graph_topology M2 2 0 (some 1) detectTriv modTriv).nodes.map
          NodeRec.degree).map (fun d : Nat => (d : ℚ))) := by
  obtain ⟨hnodes, _⟩ := topo_filtered M2 2 0 1 (by decide) detectTriv modTriv
  obtain ⟨_, havg, _⟩ := topo_fields M2 2 0 (some 1) detectTriv modTriv
  have hids : topNodeIds M2 2 0 1 = [0] := by decide
  have hdl : degreeList M2 2 0 = [2, 0] := by decide
  have hdeg : (extract_graph_topology M2 2 0 (some 1) detectTriv modTriv).nodes.map
      NodeRec.degree = [2] := by
    rw [hnodes, hids]
    decide
  have havg1 : (extract_graph_topology M2 2 0 (some 1) detectTriv modTriv).metrics.avg_degree
      = 1 := by
    rw [havg, hdl, if_pos (by simp : ([2, 0] : List Nat) ≠ [])]
    norm_num [meanQ, List.map, List.sum_cons, List.sum_nil]
  refine ⟨hdeg, havg1, ?_⟩
  rw [havg1, hdeg]
  norm_num [meanQ, List.map, List.sum_cons, List.sum_nil]

/-- C3, amended.  For every `N × N` matrix and `top_k_nodes = k < N`: the
degree statistics of the metrics record (average, max, min, variance and the
degree-distribution list) are computed on the original, unfiltered degree
values of **all** `N` nodes — not of the retained nodes only; the
per-node records of the retained nodes do carry their original
(full-graph) degrees; and the reported modularity and community count
come from community detection run on the undirected projection of the
**unfiltered** graph (the `networkx` graph object is built before
filtering and never rebuilt), not of the filtered one. -/
theorem C3_amended {α : Type} (M : Nat → Nat → ℚ) (n : Nat) (t : ℚ) (k : Nat)
    (detect : Nat → Finset (Nat × Nat) → List α) (modOf : Finset (Nat × Nat) → List α → ℚ)
    (hk : k < n) :
    (extract_graph_topology M n t (some k) detect modOf).metrics.degree_distribution =
        degreeList M n t ∧
      (extract_graph_topology M n t (some k) detect modOf).metrics.avg_degree =
        meanQ ((degreeList M n t).map (fun d : Nat => (d : ℚ))) ∧
      (extract_graph_topology M n t (some k) detect modOf).metrics.var_degree =
        varQ ((degreeList M n t).map (fun d : Nat => (d : ℚ))) ∧
      (extract_graph_topology M n t (some k) detect modOf).metrics.max_degree =
        (degreeList M n t).foldr max 0 ∧
      (extract_graph_topology M n t (some k) detect modOf).metrics.min_degree =
        (degreeList M n t).foldr min ((degreeList M n t).headD 0) ∧
      (∀ nd ∈ (extract_graph_topology M n t (some k) detect modOf).nodes,
        nd.degree = totalDeg M n t nd.id ∧ nd.in_degree = inDeg M n t nd.id ∧
          nd.out_degree = outDeg M n t nd.id) ∧
      (extract_graph_topology M n t (some k) detect modOf).metrics.modularity =
        (if 0 < (edgeList M n t).length then
          modOf (undirectedProj (edgeList M n t)) (detect n (undirectedProj (edgeList M n t)))
        else 0) ∧
      (extract_graph_topology M n t (some k) detect modOf).metrics.num_communities =
        (if 0 < (edgeList M n t).length then
          (detect n (undirectedProj (edgeList M n t))).length
        else 0) := by
  have hne : degreeList M n t ≠ [] := by
    rw [degreeList]
    intro hcon
    have := congrArg List.length hcon
    simp at this
    omega
  obtain ⟨hdist, havg, hvar, hmax, _⟩ := topo_fields M n t (some k) detect modOf
  obtain ⟨hmod, hcomm⟩ := topo_community_fields M n t (some k) detect modOf
  obtain ⟨hnodes, _⟩ := topo_filtered M n t k hk detect modOf
  have hmin : (extract_graph_topology M n t (some k) detect modOf).metrics.min_degree =
      (degreeList M n t).foldr min ((degreeList M n t).headD 0) := by
    rw [topo_min_field M n t (some k) detect modOf, dif_pos hne]
    congr 1
    obtain ⟨a, l, hdl⟩ := List.exists_cons_of_ne_nil hne
    simp only [hdl, List.head_cons, List.headD_cons]
  refine ⟨hdist, by rw [havg, if_pos hne], by rw [hvar, if_pos hne],
    by rw [hmax, if_pos hne], hmin, ?_, hmod, hcomm⟩
  intro nd hnd
  rw [hnodes] at hnd
  obtain ⟨i, _, rfl⟩ := List.mem_map.mp hnd
  exact ⟨rfl, rfl, rfl⟩

/-- C3, witness: the amended theorem applied to `M2`, `n = 2`, `k = 1`. -/
theorem C3_witness :
    (1 < 2) ∧
      (extract_graph_topology M2 2 0 (some 1) detectTriv modTriv).metrics.avg_degree =
        meanQ ((degreeList M2 2 0).map (fun d : Nat => (d : ℚ))) :=
  ⟨by decide, (C3_amended M2 2 0 1 detectTriv modTriv (by decide)).2.1⟩

/-! ## Stable top-k selection (C6) -/

/-- The ranking order realised by a stable descending sort of
`(index, degree)` pairs: earlier entries have strictly larger degree, or
equal degree and lower index. -/
def RankR (a b : Nat × Nat) : Prop := b.2 < a.2 ∨ (a.2 = b.2 ∧ a.1 < b.1)

theorem RankR_snd_le {a b : Nat × Nat} (h : RankR a b) : b.2 ≤ a.2 := by
  rcases h with h | ⟨h, _⟩
  · exact le_of_lt h
  · omega

theorem orderedInsert_rank (x : Nat × Nat) :
    ∀ S : List (Nat × Nat), S.Pairwise RankR → (∀ y ∈ S, x.1 < y.1) →
      (List.orderedInsert (fun a b => Prod.snd b ≤ Prod.snd a) x S).Pairwise RankR := by
  intro S
  induction S with
  | nil => intro _ _; simp [List.orderedInsert, RankR]
  | cons y ys ih =>
    intro hS hx
    rw [List.orderedInsert]
    split
    · next hr =>
      refine List.pairwise_cons.mpr ⟨?_, hS⟩
      intro z hz
      have hz2 : z.2 ≤ x.2 := by
        rcases List.mem_cons.mp hz with rfl | hz'
        · exact hr
        · exact le_trans (RankR_snd_le ((List.pairwise_cons.mp hS).1 z hz')) hr
      rcases lt_or_eq_of_le hz2 with h | h
      · exact Or.inl h
      · exact Or.inr ⟨h.symm, hx z hz⟩
    · next hr =>
      have hxy : x.2 < y.2 := by omega
      obtain ⟨hy, hys⟩ := List.pairwise_cons.mp hS
      refine List.pairwise_cons.mpr ⟨?_, ih hys fun z hz => hx z (List.mem_cons_of_mem _ hz)⟩
      intro z hz
      rcases (List.mem_orderedInsert _).mp hz with rfl | hz'
      · exact Or.inl hxy
      · exact hy z hz'

theorem sortDescBy_rank :
    ∀ l : List (Nat × Nat), l.Pairwise (fun a b => a.1 < b.1) →
      (sortDescBy Prod.snd l).Pairwise RankR := by
  intro l
  induction l with
  | nil => intro _; simp [sortDescBy, List.insertionSort]
  | cons x l ih =>
    intro hl
    obtain ⟨hx, hl'⟩ := List.pairwise_cons.mp hl
    rw [sortDescBy, List.insertionSort]
    exact orderedInsert_rank x _ (ih hl') fun y hy =>
      hx y ((List.perm_insertionSort _ l).mem_iff.mp hy)

/-! ## C6 — the filtered subgraph -/

/-- C6, confirmed.  For every `N × N` matrix and `top_k_nodes = k < N`,
`extract_graph_topology` returns exactly `k` nodes (with pairwise
distinct ids) — the `k` nodes of highest total degree with ties won by
the lower node index, i.e. every retained node ranks strictly before
every discarded one — and every returned edge has both endpoints among
the retained ids. -/
theorem C6_top_k {α : Type} (M : Nat → Nat → ℚ) (n : Nat) (t : ℚ) (k : Nat)
    (detect : Nat → Finset (Nat × Nat) → List α) (modOf : Finset (Nat × Nat) → List α → ℚ)
    (hk : k < n) :
    ((extract_graph_topology M n t (some k) detect modOf).nodes.map NodeRec.id).length = k ∧
      ((extract_graph_topology M n t (some k) detect modOf).nodes.map NodeRec.id).Nodup ∧
      (∀ e ∈ (extract_graph_topology M n t (some k) detect modOf).edges,
        e.1 ∈ (extract_graph_topology M n t (some k) detect modOf).nodes.map NodeRec.id ∧
        e.2.1 ∈ (extract_graph_topology M n t (some k) detect modOf).nodes.map NodeRec.id) ∧
      (∀ i ∈ (extract_graph_topology M n t (some k) detect modOf).nodes.map NodeRec.id,
        ∀ j, j < n → j ∉ (extract_graph_topology M n t (some k) detect modOf).nodes.map NodeRec.id →
          totalDeg M n t j < totalDeg M n t i ∨
            (totalDeg M n t j = totalDeg M n t i ∧ i < j)) := by
  obtain ⟨hnodes, hedges⟩ := topo_filtered M n t k hk detect modOf
  have hids : (extract_graph_topology M n t (some k) detect modOf).nodes.map NodeRec.id =
      topNodeIds M n t k := by
    rw [hnodes, List.map_map]
    have : NodeRec.id ∘ mkNodeRec M n t = fun i => i := by
      funext i; rfl
    rw [this, List.map_id']
  set pairs : List (Nat × Nat) := (List.range n).map fun i => (i, totalDeg M n t i) with hpairs
  set S := sortDescBy (fun x : Nat × Nat => x.2) pairs with hSdef
  have hperm : List.Perm S pairs := sortDescBy_perm _ _
  have hSfst : List.Perm (S.map Prod.fst) (List.range n) := by
    have := hperm.map Prod.fst
    rwa [hpairs, List.map_map, show Prod.fst ∘ (fun i : Nat => (i, totalDeg M n t i)) =
      fun i => i from rfl, List.map_id'] at this
  have hSlen : S.length = n := by
    rw [hperm.length_eq, hpairs, List.length_map, List.length_range]
  have htop : topNodeIds M n t k = (S.map Prod.fst).take k := by
    rw [topNodeIds, List.map_take]
  have hlenk : (topNodeIds M n t k).length = k := by
    rw [htop, List.length_take, List.length_map, hSlen]
    omega
  have hnd : (topNodeIds M n t k).Nodup := by
    rw [htop]
    exact (hSfst.nodup_iff.mpr (List.nodup_range n)).sublist (List.take_sublist _ _)
  have hmemS : ∀ x ∈ S, x.2 = totalDeg M n t x.1 := by
    intro x hx
    have := hperm.mem_iff.mp hx
    rw [hpairs] at this
    obtain ⟨a, _, rfl⟩ := List.mem_map.mp this
    rfl
  have hrank : S.Pairwise RankR := by
    apply sortDescBy_rank
    rw [hpairs]
    exact (List.pairwise_lt_range n).map _ fun _ _ h => h
  refine ⟨?_, ?_, ?_, ?_⟩
  · rw [hids]; exact hlenk
  · rw [hids]; exact hnd
  · intro e he
    rw [hedges] at he
    have := List.of_mem_filter he
    rw [hids]
    simp only [Bool.and_eq_true, decide_eq_true_eq] at this
    exact this
  · rw [hids]
    intro i hi j hj hjn
    rw [htop] at hi hjn
    obtain ⟨pi, hpi, hpieq⟩ := List.mem_map.mp ((List.map_take Prod.fst S k) ▸ hi)
    have hjS : (j, totalDeg M n t j) ∈ S := by
      apply hperm.mem_iff.mpr
      rw [hpairs]
      exact List.mem_map.mpr ⟨j, List.mem_range.mpr hj, rfl⟩
    have hjdrop : (j, totalDeg M n t j) ∈ S.drop k := by
      have := (List.take_append_drop k S) ▸ hjS
      rcases List.mem_append.mp this with hjt | hjd
      · exfalso
        apply hjn
        rw [← List.map_take]
        exact List.mem_map.mpr ⟨(j, totalDeg M n t j), hjt, rfl⟩
      · exact hjd
    have hcross : ∀ a ∈ S.take k, ∀ b ∈ S.drop k, RankR a b := by
      have := (List.take_append_drop k S).symm ▸ hrank
      exact (List.pairwise_append.mp this).2.2
    have hR := hcross pi hpi _ hjdrop
    have hpi2 : pi.2 = totalDeg M n t i := by
      rw [hmemS pi (List.mem_of_mem_take hpi), hpieq]
    rcases hR with h | ⟨h, h2⟩
    · left; rw [← hpi2]; exact h
    · right
      constructor
      · rw [← hpi2, h]
      · rw [← hpieq]; exact h2

/-- C6, witness: the theorem applied to `M2`, `n = 2`, `k = 1`. -/
theorem C6_witness :
    (1 < 2) ∧
      ((extract_graph_topology M2 2 0 (some 1) detectTriv modTriv).nodes.map
        NodeRec.id).length = 1 :=
  ⟨by decide, (C6_top_k M2 2 0 1 detectTriv modTriv (by decide)).1⟩

/-! ## Sparsity helpers (C7) -/

theorem meanQ_replicate {n : Nat} (hn : 0 < n) (c : ℚ) :
    meanQ (List.replicate n c) = c := by
  have hn' : (n : ℚ) ≠ 0 := by exact_mod_cast hn.ne'
  rw [meanQ, List.sum_replicate, List.length_replicate, nsmul_eq_mul]
  field_simp

theorem varQ_replicate (n : Nat) (c : ℚ) : varQ (List.replicate n c) = 0 := by
  rcases Nat.eq_zero_or_pos n with rfl | hn
  · simp [varQ, meanQ]
  · rw [varQ, meanQ_replicate hn, List.map_replicate]
    have : (c - c) ^ 2 = 0 := by ring
    rw [this]
    exact meanQ_all_zero fun x hx => List.eq_of_mem_replicate hx

theorem getD_mem_of_lt {α : Type} {l : List α} {i : Nat} {d : α} (h : i < l.length) :
    l.getD i d ∈ l := by
  induction l generalizing i with
  | nil => simp at h
  | cons a l ih =>
    cases i with
    | zero => exact List.mem_cons_self _ _
    | succ i => exact List.mem_cons_of_mem _ (ih (by simpa using h))

theorem getD_zero_of_ne_nil {α : Type} {l : List α} {d : α} (h : l ≠ []) :
    l.getD 0 d ∈ l := by
  cases l with
  | nil => exact absurd rfl h
  | cons a l => exact List.mem_cons_self _ _

theorem entryCount_shape {m : List (List ℚ)} {T N : Nat} (hT : m.length = T)
    (hrows : ∀ row ∈ m, row.length = N) : entryCount m = T * N := by
  rw [entryCount, show m.map List.length = List.replicate T N from
    List.eq_replicate_iff.mpr ⟨by simp [hT], by
      intro b hb
      obtain ⟨row, hrow, rfl⟩ := List.mem_map.mp hb
      exact hrows row hrow⟩]
  rw [List.sum_replicate, smul_eq_mul]

/-! ## C7 — activation sparsity -/

/-- C7, confirmed.  For every nonempty list of equal-shaped (`T × N`,
`T, N > 0`) activation matrices: each per-layer sparsity value is the
number of exactly-nonzero entries of that layer divided by `T·N`; each
per-position value is the number of nonzero entries at that position
across all `L` layers divided by `L·N`; an all-zero tensor makes every
per-layer and per-position value, the aggregate mean, and the aggregate
deviation exactly `0`; an all-nonzero tensor makes every per-layer and
per-position value and the aggregate mean exactly `1` (deviation `0`). -/
theorem C7_sparsity (ys : List (List (List ℚ))) (xs : Option (List (List (List ℚ))))
    (T N : Nat) (hys : ys ≠ []) (hT : 0 < T) (hN : 0 < N)
    (hshape : ∀ m ∈ ys, m.length = T ∧ ∀ row ∈ m, row.length = N) :
    ((extract_activation_sparsity ys xs).y_sparsity_per_layer =
        ys.map fun m => (nonzeroCount m : ℚ) / ((T * N : Nat) : ℚ)) ∧
      ((extract_activation_sparsity ys xs).y_sparsity_per_token =
        (List.range T).map fun t =>
          (((ys.map fun m => ((m.getD t []).filter fun x => decide (x ≠ 0)).length).sum : Nat) : ℚ) /
            ((ys.length * N : Nat) : ℚ)) ∧
      ((∀ m ∈ ys, ∀ row ∈ m, ∀ x ∈ row, x = 0) →
        (extract_activation_sparsity ys xs).y_sparsity_per_layer =
            List.replicate ys.length 0 ∧
          (extract_activation_sparsity ys xs).y_sparsity_per_token = List.replicate T 0 ∧
          (extract_activation_sparsity ys xs).y_avg_sparsity = 0 ∧
          (extract_activation_sparsity ys xs).y_var_sparsity = 0) ∧
      ((∀ m ∈ ys, ∀ row ∈ m, ∀ x ∈ row, x ≠ 0) →
        (extract_activation_sparsity ys xs).y_sparsity_per_layer =
            List.replicate ys.length 1 ∧
          (extract_activation_sparsity ys xs).y_sparsity_per_token = List.replicate T 1 ∧
          (extract_activation_sparsity ys xs).y_avg_sparsity = 1 ∧
          (extract_activation_sparsity ys xs).y_var_sparsity = 0) := by
  have hT0 : (ys.getD 0 []).length = T :=
    (hshape _ (getD_zero_of_ne_nil hys)).1
  have hrowlen : ∀ m ∈ ys, ∀ t, t < T → (m.getD t []).length = N := by
    intro m hm t ht
    obtain ⟨hmT, hrows⟩ := hshape m hm
    exact hrows _ (getD_mem_of_lt (by omega))
  have hdenom : ∀ t, t < T → (ys.map fun m => (m.getD t []).length).sum = ys.length * N := by
    intro t ht
    rw [show ys.map (fun m => (m.getD t []).length) = List.replicate ys.length N from
      List.eq_replicate_iff.mpr ⟨by simp, by
        intro b hb
        obtain ⟨m, hm, rfl⟩ := List.mem_map.mp hb
        exact hrowlen m hm t ht⟩]
    rw [List.sum_replicate, smul_eq_mul]
  have hperlayer : (extract_activation_sparsity ys xs).y_sparsity_per_layer =
      ys.map fun m => (nonzeroCount m : ℚ) / ((T * N : Nat) : ℚ) := by
    show ys.map layerSparsity = _
    apply List.map_congr_left
    intro m hm
    rw [layerSparsity, entryCount_shape (hshape m hm).1 (hshape m hm).2]
  have hpertoken : (extract_activation_sparsity ys xs).y_sparsity_per_token =
      (List.range T).map fun t =>
        (((ys.map fun m => ((m.getD t []).filter fun x => decide (x ≠ 0)).length).sum : Nat) : ℚ) /
          ((ys.length * N : Nat) : ℚ) := by
    show (List.range (ys.getD 0 []).length).map (tokenSparsity ys) = _
    rw [hT0]
    apply List.map_congr_left
    intro t ht
    rw [tokenSparsity, hdenom t (List.mem_range.mp ht)]
  have hL : 0 < ys.length := List.length_pos.mpr hys
  refine ⟨hperlayer, hpertoken, ?_, ?_⟩
  · intro hzero
    have hcount : ∀ m ∈ ys, nonzeroCount m = 0 := by
      intro m hm
      rw [nonzeroCount]
      apply List.sum_eq_zero
      intro x hx
      obtain ⟨row, hrow, rfl⟩ := List.mem_map.mp hx
      rw [List.length_eq_zero, List.filter_eq_nil_iff]
      intro a ha
      simpa using hzero m hm row hrow a ha
    have h1 : (extract_activation_sparsity ys xs).y_sparsity_per_layer =
        List.replicate ys.length 0 := by
      rw [hperlayer]
      apply List.eq_replicate_iff.mpr
      refine ⟨by simp, ?_⟩
      intro b hb
      obtain ⟨m, hm, rfl⟩ := List.mem_map.mp hb
      rw [hcount m hm]
      simp
    have h2 : (extract_activation_sparsity ys xs).y_sparsity_per_token =
        List.replicate T 0 := by
      rw [hpertoken]
      apply List.eq_replicate_iff.mpr
      refine ⟨by simp, ?_⟩
      intro b hb
      obtain ⟨t, ht, rfl⟩ := List.mem_map.mp hb
      have : (ys.map fun m => ((m.getD t []).filter fun x => decide (x ≠ 0)).length).sum = 0 := by
        apply List.sum_eq_zero
        intro x hx
        obtain ⟨m, hm, rfl⟩ := List.mem_map.mp hx
        rw [List.length_eq_zero, List.filter_eq_nil_iff]
        intro a ha
        have hat : t < T := List.mem_range.mp ht
        have : (m.getD t []) ∈ m := getD_mem_of_lt (by rw [(hshape m hm).1]; omega)
        simpa using hzero m hm _ this a ha
      rw [this]
      simp
    refine ⟨h1, h2, ?_, ?_⟩
    · show meanQ (ys.map layerSparsity) = 0
      have := h1
      rw [show (extract_activation_sparsity ys xs).y_sparsity_per_layer =
        ys.map layerSparsity from rfl] at this
      rw [this, meanQ_replicate hL]
    · show varQ (ys.map layerSparsity) = 0
      have := h1
      rw [show (extract_activation_sparsity ys xs).y_sparsity_per_layer =
        ys.map layerSparsity from rfl] at this
      rw [this, varQ_replicate]
  · intro hnz
    have hcount : ∀ m ∈ ys, nonzeroCount m = entryCount m := by
      intro m hm
      rw [nonzeroCount, entryCount]
      congr 1
      apply List.map_congr_left
      intro row hrow
      congr 1
      apply List.filter_eq_self.mpr
      intro a ha
      simpa using hnz m hm row hrow a ha
    have hTN : ((T * N : Nat) : ℚ) ≠ 0 := by
      have : 0 < T * N := Nat.mul_pos hT hN
      exact_mod_cast this.ne'
    have hLN : ((ys.length * N : Nat) : ℚ) ≠ 0 := by
      have : 0 < ys.length * N := Nat.mul_pos hL hN
      exact_mod_cast this.ne'
    have h1 : (extract_activation_sparsity ys xs).y_sparsity_per_layer =
        List.replicate ys.length 1 := by
      rw [hperlayer]
      apply List.eq_replicate_iff.mpr
      refine ⟨by simp, ?_⟩
      intro b hb
      obtain ⟨m, hm, rfl⟩ := List.mem_map.mp hb
      rw [hcount m hm, entryCount_shape (hshape m hm).1 (hshape m hm).2]
      exact div_self hTN
    have h2 : (extract_activation_sparsity ys xs).y_sparsity_per_token =
        List.replicate T 1 := by
      rw [hpertoken]
      apply List.eq_replicate_iff.mpr
      refine ⟨by simp, ?_⟩
      intro b hb
      obtain ⟨t, ht, rfl⟩ := List.mem_map.mp hb
      have hat : t < T := List.mem_range.mp ht
      have hnum : (ys.map fun m => ((m.getD t []).filter fun x => decide (x ≠ 0)).length).sum
          = ys.length * N := by
        rw [show ys.map (fun m => ((m.getD t []).filter fun x => decide (x ≠ 0)).length) =
          List.replicate ys.length N from List.eq_replicate_iff.mpr ⟨by simp, by
            intro b hb
            obtain ⟨m, hm, rfl⟩ := List.mem_map.mp hb
            have hmem : (m.getD t []) ∈ m := getD_mem_of_lt (by rw [(hshape m hm).1]; omega)
            rw [List.filter_eq_self.mpr fun a ha => by simpa using hnz m hm _ hmem a ha]
            exact hrowlen m hm t hat⟩]
        rw [List.sum_replicate, smul_eq_mul]
      rw [hnum]
      exact div_self hLN
    refine ⟨h1, h2, ?_, ?_⟩
    · show meanQ (ys.map layerSparsity) = 1
      have := h1
      rw [show (extract_activation_sparsity ys xs).y_sparsity_per_layer =
        ys.map layerSparsity from rfl] at this
      rw [this, meanQ_replicate hL]
    · show varQ (ys.map layerSparsity) = 0
      have := h1
      rw [show (extract_activation_sparsity ys xs).y_sparsity_per_layer =
        ys.map layerSparsity from rfl] at this
      rw [this, varQ_replicate]

/-- C7, witness: the theorem applied to the one-layer 1×1 tensors `[[[5]]]`
(all nonzero) via the hypotheses, evaluated at `T = N = 1`. -/
theorem C7_witness :
    (([[[5]]] : List (List (List ℚ))) ≠ [] ∧ 0 < 1 ∧
        (∀ m ∈ ([[[5]]] : List (List (List ℚ))), m.length = 1 ∧
          ∀ row ∈ m, row.length = 1)) ∧
      (extract_activation_sparsity [[[5]]] none).y_sparsity_per_layer =
        ([[[5]]] : List (List (List ℚ))).map fun m =>
          (nonzeroCount m : ℚ) / ((1 * 1 : Nat) : ℚ) :=
  ⟨⟨by decide, by decide, by decide⟩,
    (C7_sparsity [[[5]]] none 1 1 (by decide) (by decide) (by decide) (by decide)).1⟩

/-! ## Attention-flow helpers (C8) -/

theorem argsortAsc_perm (vals : List ℚ) :
    List.Perm (argsortAsc vals) (List.range vals.length) :=
  List.perm_insertionSort _ _

theorem argsortAsc_sorted (vals : List ℚ) :
    (argsortAsc vals).Pairwise (fun i j => vals.getD i 0 ≤ vals.getD j 0) := by
  have htot : IsTotal Nat (fun i j => vals.getD i 0 ≤ vals.getD j 0) :=
    ⟨fun a b => le_total _ _⟩
  have htrans : IsTrans Nat (fun i j => vals.getD i 0 ≤ vals.getD j 0) :=
    ⟨fun _ _ _ h1 h2 => le_trans h1 h2⟩
  exact List.sorted_insertionSort _ _

theorem flatten_getD_square :
    ∀ (m : List (List ℚ)) (T : Nat), (∀ row ∈ m, row.length = T) →
      ∀ i j, j < T → m.flatten.getD (i * T + j) 0 = (m.getD i []).getD j 0 := by
  intro m
  induction m with
  | nil =>
    intro T _ i j _
    simp [List.getD]
  | cons row rest ih =>
    intro T hrows i j hj
    have hrow : row.length = T := hrows row (List.mem_cons_self _ _)
    rw [List.flatten_cons]
    cases i with
    | zero =>
      rw [Nat.zero_mul, Nat.zero_add,
        List.getD_append _ _ _ _ (by omega)]
      rfl
    | succ i =>
      have harith : (i + 1) * T + j = row.length + (i * T + j) := by
        rw [hrow]; ring
      rw [harith, List.getD_append_right _ _ _ _ (by omega),
        Nat.add_sub_cancel_left]
      exact ih T (fun r hr => hrows r (List.mem_cons_of_mem _ hr)) i j hj

theorem flatten_length_square {m : List (List ℚ)} {T : Nat} (hm : m.length = T)
    (hrows : ∀ row ∈ m, row.length = T) : m.flatten.length = T * T := by
  rw [List.length_flatten, show m.map List.length = List.replicate T T from
    List.eq_replicate_iff.mpr ⟨by simp [hm], by
      intro b hb
      obtain ⟨row, hrow, rfl⟩ := List.mem_map.mp hb
      exact hrows row hrow⟩]
  rw [List.sum_replicate, smul_eq_mul]

/-! ## C8 — attention flow -/

/-- C8, confirmed.  First conjunct (top-k selection by raw value): on a
square batch-averaged matrix, every returned edge carries the entry at
its recovered `(query, key)` coordinates, and every coordinate pair that
appears in no returned edge holds an entry `≤` every returned edge's
weight — the selection takes the largest raw (not absolute) values.
Second/third conjuncts: the concrete scenario — one layer, batch 1, a
4×4 matrix with its unique maximum `5` at `(0,3)` (and a large-magnitude
negative entry `-9` that absolute-value selection would have preferred),
`top_k = 1` — returns exactly the edge `(source 0, target 3, weight 5)`;
and a batch-2 fixture confirms the tensor is batch-averaged before
selection. -/
theorem C8_attention :
    (∀ (m : List (List ℚ)) (k T : Nat), 0 < k → m.length = T →
      (∀ row ∈ m, row.length = T) →
      ∀ e ∈ topEdges m k,
        e.1 < T ∧ e.2.1 < T ∧ e.2.2 = (m.getD e.1 []).getD e.2.1 0 ∧
          ∀ i j, i < T → j < T →
            (∀ e2 ∈ topEdges m k, ¬(e2.1 = i ∧ e2.2.1 = j)) →
            (m.getD i []).getD j 0 ≤ e.2.2) ∧
      (extract_attention_flow attnC 1).attention_edges_per_layer = [[(0, 3, 5)]] ∧
      (extract_attention_flow attnB2 1).attention_edges_per_layer = [[(0, 1, 3)]] := by
  refine ⟨?_, ?_, ?_⟩
  · intro m k T hk hmT hrows e he
    subst hmT
    set T := m.length with hT
    set flat := m.flatten with hflat
    set S := argsortAsc flat with hS
    have hflatlen : flat.length = T * T := flatten_length_square rfl hrows
    have hSperm : List.Perm S (List.range flat.length) := argsortAsc_perm flat
    have hSsort : S.Pairwise (fun i j => flat.getD i 0 ≤ flat.getD j 0) :=
      argsortAsc_sorted flat
    obtain ⟨fi, hfi, rfl⟩ := List.mem_map.mp he
    have hlast : lastK k S = S.drop (S.length - k) := by
      rw [lastK, if_neg (by omega)]
    have hfiS : fi ∈ S := by
      rw [hlast] at hfi
      exact List.mem_of_mem_drop hfi
    have hfiRange : fi < T * T := by
      have := hSperm.mem_iff.mp hfiS
      rw [← hflatlen]
      exact List.mem_range.mp this
    have hTpos : 0 < T := by
      rcases Nat.eq_zero_or_pos T with h | h
      · rw [h, Nat.mul_zero] at hfiRange
        omega
      · exact h
    have hdiv : fi / T < T := Nat.div_lt_of_lt_mul hfiRange
    have hmod : fi % T < T := Nat.mod_lt _ hTpos
    have hfieq : fi = fi / T * T + fi % T := by
      rw [Nat.mul_comm]
      exact (Nat.div_add_mod fi T).symm
    have hvale : flat.getD fi 0 = (m.getD (fi / T) []).getD (fi % T) 0 := by
      conv_lhs => rw [hfieq]
      exact flatten_getD_square m T hrows _ _ hmod
    refine ⟨hdiv, hmod, rfl, ?_⟩
    intro i j hi hj hnot
    have hfi0Range : i * T + j < T * T := by
      have h1 : i * T + j < (i + 1) * T := by
        rw [Nat.add_mul, Nat.one_mul]; omega
      calc i * T + j < (i + 1) * T := h1
        _ ≤ T * T := Nat.mul_le_mul_right _ (by omega)
    have hfi0S : i * T + j ∈ S := by
      apply hSperm.mem_iff.mpr
      rw [hflatlen]
      exact List.mem_range.mpr hfi0Range
    have hidxd : (i * T + j) / T = i := by
      rw [Nat.add_comm, Nat.add_mul_div_right _ _ hTpos, Nat.div_eq_of_lt hj, Nat.zero_add]
    have hidxm : (i * T + j) % T = j := by
      rw [Nat.add_comm, Nat.add_mul_mod_self_right, Nat.mod_eq_of_lt hj]
    have hfi0take : i * T + j ∈ S.take (S.length - k) := by
      have hin : i * T + j ∈ S.take (S.length - k) ++ S.drop (S.length - k) := by
        rw [List.take_append_drop]
        exact hfi0S
      rcases List.mem_append.mp hin with h | h
      · exact h
      · exfalso
        refine hnot ((i * T + j) / T, (i * T + j) % T,
          (m.getD ((i * T + j) / T) []).getD ((i * T + j) % T) 0) ?_ ⟨hidxd, hidxm⟩
        apply List.mem_map.mpr
        exact ⟨i * T + j, by rw [hlast]; exact h, rfl⟩
    have hcross : flat.getD (i * T + j) 0 ≤ flat.getD fi 0 := by
      have hpw : (S.take (S.length - k) ++ S.drop (S.length - k)).Pairwise
          (fun a b => flat.getD a 0 ≤ flat.getD b 0) := by
        rw [List.take_append_drop]
        exact hSsort
      exact (List.pairwise_append.mp hpw).2.2 _ hfi0take fi (by rw [← hlast]; exact hfi)
    rw [← hvale]
    calc (m.getD i []).getD j 0 = flat.getD (i * T + j) 0 :=
          (flatten_getD_square m T hrows i j hj).symm
      _ ≤ flat.getD fi 0 := hcross
  · have hstack : attnC.map batchMean = [[[0, 0, 0, 5], [0, 0, 0, 0], [0, -9, 0, 0],
        [0, 0, 0, 0]]] := by
      norm_num [attnC, batchMean, List.range_succ, List.getD, List.sum_cons, List.sum_nil]
    show (attnC.map batchMean).map (fun m => topEdges m 1) = [[(0, 3, 5)]]
    rw [hstack]
    decide
  · have hstack : attnB2.map batchMean = [[[0, 3], [0, 0]]] := by
      norm_num [attnB2, batchMean, List.range_succ, List.getD, List.sum_cons, List.sum_nil]
    show (attnB2.map batchMean).map (fun m => topEdges m 1) = [[(0, 1, 3)]]
    rw [hstack]
    decide

/-- C8, witness: the selection conjunct applied to the concrete 2×2
matrix `[[0,1],[2,3]]` with `k = 1`. -/
theorem C8_witness :
    topEdges [[(0 : ℚ), 1], [2, 3]] 1 = [(1, 1, 3)] ∧
      (∀ e ∈ topEdges [[(0 : ℚ), 1], [2, 3]] 1,
        e.1 < 2 ∧ e.2.1 < 2 ∧ e.2.2 = ([[(0 : ℚ), 1], [2, 3]].getD e.1 []).getD e.2.1 0 ∧
          ∀ i j, i < 2 → j < 2 →
            (∀ e2 ∈ topEdges [[(0 : ℚ), 1], [2, 3]] 1, ¬(e2.1 = i ∧ e2.2.1 = j)) →
            ([[(0 : ℚ), 1], [2, 3]].getD i []).getD j 0 ≤ e.2.2) :=
  ⟨by decide, C8_attention.1 [[0, 1], [2, 3]] 1 2 (by decide) (by decide) (by decide)⟩

/-! ## C4 — the greedy cell-scored step -/

theorem isAdjacent_mem_adjacentCells {p q : Pos} (h : isAdjacent p q = true) :
    q ∈ adjacentCells p := by
  rw [isAdjacent, Bool.or_eq_true, Bool.and_eq_true, Bool.and_eq_true] at h
  simp only [decide_eq_true_eq] at h
  obtain ⟨p1, p2⟩ := p
  obtain ⟨q1, q2⟩ := q
  rw [adjacentCells]
  rcases h with ⟨h1, h2⟩ | ⟨h1, h2⟩
  · have : q1 = p1 - 1 ∨ q1 = p1 + 1 := by omega
    have hq2 : q2 = p2 := by omega
    rcases this with rfl | rfl <;> simp [hq2]
  · have : q2 = p2 - 1 ∨ q2 = p2 + 1 := by omega
    have hq1 : q1 = p1 := by omega
    rcases this with rfl | rfl <;> simp [hq1]

/-- C4, counterexample.  With the score collaborator `scoreC4` on the 2×2
board `[[2,0],[0,3]]`, the source solver (which marks its **current**
position with code 4 in the model input, so both candidates of a step are
scored on the *same* board state) walks `(0,0) → (0,1) → (1,1)`, while
the claim's prescription (mark the **candidate** as current) walks
`(0,0) → (1,0) → (1,1)`: the claim misstates which cell carries code 4,
and the two policies choose different next positions. -/
theorem C4_counterexample :
    solveCell scoreC4 2 cellBoard2 (0, 0) (1, 1) 5 = some [(0, 0), (0, 1), (1, 1)] ∧
      solveCellClaimed scoreC4 2 cellBoard2 (0, 0) (1, 1) 5 = some [(0, 0), (1, 0), (1, 1)] ∧
      solveCell scoreC4 2 cellBoard2 (0, 0) (1, 1) 5 ≠
        solveCellClaimed scoreC4 2 cellBoard2 (0, 0) (1, 1) 5 := by
  have h1 : solveCell scoreC4 2 cellBoard2 (0, 0) (1, 1) 5 =
      some [(0, 0), (0, 1), (1, 1)] := by
    norm_num [solveCell, solveCellAux, validMovesScored, adjacentCells, isValidMove, inB, cell,
      cellBoard2, createBoardState, setCell, manhattan, scoreC4, sortDescBy, List.insertionSort,
      List.orderedInsert, Finset.mem_insert, Finset.mem_singleton, Prod.ext_iff]
  have h2 : solveCellClaimed scoreC4 2 cellBoard2 (0, 0) (1, 1) 5 =
      some [(0, 0), (1, 0), (1, 1)] := by
    norm_num [solveCellClaimed, solveCellClaimedAux, validMovesScoredClaimed, adjacentCells,
      isValidMove, inB, cell, cellBoard2, createBoardState, setCell, manhattan, scoreC4,
      sortDescBy, List.insertionSort, List.orderedInsert, Finset.mem_insert,
      Finset.mem_singleton, Prod.ext_iff]
  refine ⟨h1, h2, ?_⟩
  rw [h1, h2]
  simp

/-- C4, amended.  At every greedy step (current ≠ end, at least one valid
move): the candidate list consists of exactly the in-bounds, non-wall,
unvisited, adjacent neighbours, each scored
`-manhattan(candidate, end) + 0.1 * score(board_state, candidate_index)`
where `board_state` is the **same** for all candidates of the step — it
marks start `2`, end `3` and the solver's **current** position `4` (one
scoring call per candidate, all on identical input, differing only in the
candidate's flat cell index); the step then moves to a candidate with
maximal combined score (ties to the earliest in up/down/left/right
order, by sort stability). -/
theorem C4_amended (score : List Int → Int → ℚ) (n : Nat) (b : List (List Int))
    (s e current : Pos) (path : List Pos) (visited : Finset Pos) (fuel : Nat)
    (hne : current ≠ e)
    (hvm : validMovesScored score n b current s e visited ≠ []) :
    (∀ np q, (np, q) ∈ validMovesScored score n b current s e visited ↔
      isValidMove n b np visited current = true ∧
        q = -(manhattan np e : ℚ) + (1 / 10) *
          score (createBoardState b current s e) (np.1 * (n : Int) + np.2)) ∧
      ∃ best rest, sortDescBy Prod.snd (validMovesScored score n b current s e visited) =
          best :: rest ∧
        best ∈ validMovesScored score n b current s e visited ∧
        (∀ x ∈ validMovesScored score n b current s e visited, x.2 ≤ best.2) ∧
        solveCellAux score n b s e (fuel + 1) current path visited =
          solveCellAux score n b s e fuel best.1 (path ++ [best.1]) (insert best.1 visited) := by
  constructor
  · intro np q
    constructor
    · intro hmem
      obtain ⟨a, _, ha⟩ := List.mem_filterMap.mp hmem
      by_cases hv : isValidMove n b a visited current = true
      · rw [if_pos hv] at ha
        simp only [Option.some.injEq, Prod.mk.injEq] at ha
        obtain ⟨rfl, rfl⟩ := ha
        exact ⟨hv, rfl⟩
      · rw [if_neg hv] at ha
        cases ha
    · rintro ⟨hv, rfl⟩
      apply List.mem_filterMap.mpr
      refine ⟨np, ?_, by rw [if_pos hv]⟩
      have hadj : isAdjacent current np = true := by
        rw [isValidMove] at hv
        simp only [Bool.and_eq_true] at hv
        exact hv.2
      exact isAdjacent_mem_adjacentCells hadj
  · rcases hsort : sortDescBy Prod.snd (validMovesScored score n b current s e visited) with
      _ | ⟨best, rest⟩
    · exfalso
      apply hvm
      have hp := sortDescBy_perm Prod.snd (validMovesScored score n b current s e visited)
      rw [hsort] at hp
      exact hp.symm.eq_nil
    · obtain ⟨hmem, hmax⟩ := sortDescBy_head_max _ _ _ _ hsort
      refine ⟨best, rest, rfl, hmem, hmax, ?_⟩
      rw [solveCellAux, if_neg hne, hsort]

/-- C4, witness for the amended theorem: the first step of the
counterexample run. -/
theorem C4_witness :
    ((0, 0) : Pos) ≠ (1, 1) ∧
      validMovesScored scoreC4 2 cellBoard2 (0, 0) (0, 0) (1, 1) {(0, 0)} ≠ [] ∧
      ∃ best rest, sortDescBy Prod.snd
          (validMovesScored scoreC4 2 cellBoard2 (0, 0) (0, 0) (1, 1) {(0, 0)}) =
          best :: rest ∧
        best ∈ validMovesScored scoreC4 2 cellBoard2 (0, 0) (0, 0) (1, 1) {(0, 0)} ∧
        (∀ x ∈ validMovesScored scoreC4 2 cellBoard2 (0, 0) (0, 0) (1, 1) {(0, 0)},
          x.2 ≤ best.2) ∧
        solveCellAux scoreC4 2 cellBoard2 (0, 0) (1, 1) 5 (0, 0) [(0, 0)] {(0, 0)} =
          solveCellAux scoreC4 2 cellBoard2 (0, 0) (1, 1) 4 best.1 ([(0, 0)] ++ [best.1])
            (insert best.1 {(0, 0)}) :=
  ⟨by decide, by decide,
    (C4_amended scoreC4 2 cellBoard2 (0, 0) (1, 1) (0, 0) [(0, 0)] {(0, 0)} 4
      (by decide) (by decide)).2⟩

/-! ## Greedy-walk well-formedness (C10, and the comparison clause of C1) -/

theorem isAdjacent_adjB {p q : Pos} : isAdjacent p q = true ↔ adjB q p = true := by
  rw [isAdjacent, adjB, Bool.or_eq_true, Bool.and_eq_true, Bool.and_eq_true]
  simp only [decide_eq_true_eq]
  omega

theorem adjB_symm {p q : Pos} (h : adjB p q = true) : adjB q p = true := by
  rw [adjB, decide_eq_true_eq] at h ⊢
  omega

theorem isValidMove_parts {n : Nat} {b : List (List Int)} {pos : Pos}
    {visited : Finset Pos} {current : Pos} (h : isValidMove n b pos visited current = true) :
    inB n pos = true ∧ cell b pos ≠ 1 ∧ pos ∉ visited ∧ isAdjacent current pos = true := by
  rw [isValidMove] at h
  simp only [Bool.and_eq_true, decide_eq_true_eq] at h
  exact ⟨h.1.1.1, h.1.1.2, h.1.2, h.2⟩

theorem legalCell_of_parts {n : Nat} {b : List (List Int)} {pos : Pos}
    (h1 : inB n pos = true) (h2 : cell b pos ≠ 1) : legalCell b n pos = true := by
  rw [legalCell, Bool.and_eq_true]
  exact ⟨h1, by simpa using h2⟩

/-- The step invariant of both greedy walks: appending a legal, adjacent,
unvisited cell preserves well-formedness of the accumulated path. -/
theorem walk_extend {b : List (List Int)} {n : Nat} {s current np : Pos}
    {path : List Pos} {visited : Finset Pos}
    (hhead : path.head? = some s) (hlast : path.getLast? = some current)
    (hchain : List.Chain' (fun p q => adjB p q = true) path) (hnd : path.Nodup)
    (hvis : ∀ c ∈ path, c ∈ visited) (htail : ∀ c ∈ path.tail, legalCell b n c = true)
    (hadj : adjB np current = true) (hleg : legalCell b n np = true) (hnp : np ∉ visited) :
    (path ++ [np]).head? = some s ∧ (path ++ [np]).getLast? = some np ∧
      List.Chain' (fun p q => adjB p q = true) (path ++ [np]) ∧ (path ++ [np]).Nodup ∧
      (∀ c ∈ path ++ [np], c ∈ insert np visited) ∧
      (∀ c ∈ (path ++ [np]).tail, legalCell b n c = true) := by
  have hne : path ≠ [] := by
    intro hcon; rw [hcon] at hhead; cases hhead
  refine ⟨?_, ?_, ?_, ?_, ?_, ?_⟩
  · rw [List.head?_append_of_ne_nil _ hne]
    exact hhead
  · exact List.getLast?_concat _
  · rw [List.chain'_append]
    refine ⟨hchain, List.chain'_singleton _, ?_⟩
    intro x hx y hy
    simp only [Option.mem_def] at hx hy
    rw [hlast] at hx
    simp only [List.head?_cons, Option.some.injEq] at hx hy
    subst hx
    subst hy
    exact adjB_symm hadj
  · rw [List.nodup_append]
    refine ⟨hnd, List.nodup_singleton _, ?_⟩
    intro a ha hb
    simp only [List.mem_singleton] at hb
    subst hb
    exact hnp (hvis a ha)
  · intro c hc
    rcases List.mem_append.mp hc with h | h
    · exact Finset.mem_insert_of_mem (hvis c h)
    · simp only [List.mem_singleton] at h
      subst h
      exact Finset.mem_insert_self _ _
  · intro c hc
    rw [List.tail_append_of_ne_nil hne] at hc
    rcases List.mem_append.mp hc with h | h
    · exact htail c h
    · simp only [List.mem_singleton] at h
      subst h
      exact hleg

/-- Well-formedness of every path returned by the greedy cell-scored
loop, by induction on the remaining step budget. -/
theorem solveCellAux_wf (score : List Int → Int → ℚ) (n : Nat) (b : List (List Int))
    (s e : Pos) :
    ∀ (fuel : Nat) (current : Pos) (path : List Pos) (visited : Finset Pos)
      (sol : List Pos),
      path.head? = some s → path.getLast? = some current →
      List.Chain' (fun p q => adjB p q = true) path → path.Nodup →
      (∀ c ∈ path, c ∈ visited) → (∀ c ∈ path.tail, legalCell b n c = true) →
      solveCellAux score n b s e fuel current path visited = some sol →
      sol.head? = some s ∧ sol.getLast? = some e ∧
        List.Chain' (fun p q => adjB p q = true) sol ∧ sol.Nodup ∧
        (∀ c ∈ sol.tail, legalCell b n c = true) ∧ sol.length ≤ path.length + fuel := by
  intro fuel
  induction fuel with
  | zero =>
    intro current path visited sol hhead hlast hchain hnd hvis htail hsol
    rw [solveCellAux] at hsol
    split at hsol
    · next hcur =>
      cases hsol
      subst hcur
      exact ⟨hhead, hlast, hchain, hnd, htail, le_refl _⟩
    · cases hsol
  | succ fuel ih =>
    intro current path visited sol hhead hlast hchain hnd hvis htail hsol
    rw [solveCellAux] at hsol
    split at hsol
    · next hcur =>
      cases hsol
      subst hcur
      exact ⟨hhead, hlast, hchain, hnd, htail, by omega⟩
    · next hcur =>
      rcases hsort : sortDescBy Prod.snd
          (validMovesScored score n b current s e visited) with _ | ⟨best, rest⟩
      · rw [hsort] at hsol; cases hsol
      · rw [hsort] at hsol
        have hbestmem : best ∈ validMovesScored score n b current s e visited :=
          (sortDescBy_head_max _ _ _ _ hsort).1
        obtain ⟨a, _, ha⟩ := List.mem_filterMap.mp hbestmem
        by_cases hv : isValidMove n b a visited current = true
        · rw [if_pos hv] at ha
          simp only [Option.some.injEq] at ha
          subst ha
          obtain ⟨hin, hwall, hnvis, hadj⟩ := isValidMove_parts hv
          obtain ⟨h1, h2, h3, h4, h5, h6⟩ := walk_extend hhead hlast hchain hnd hvis htail
            (isAdjacent_adjB.mp hadj) (legalCell_of_parts hin hwall) hnvis
          obtain ⟨g1, g2, g3, g4, g5, g6⟩ := ih a (path ++ [a])
            (insert a visited) sol h1 h2 h3 h4 h5 h6 hsol
          refine ⟨g1, g2, g3, g4, g5, ?_⟩
          rw [List.length_append, List.length_singleton] at g6
          omega
        · rw [if_neg hv] at ha
          cases ha

theorem dirOf_adjB (p : Pos) {i : Nat} (hi : i < 4) :
    adjB (p.1 + (dirOf i).1, p.2 + (dirOf i).2) p = true := by
  interval_cases i <;> (rw [adjB, decide_eq_true_eq]; simp [dirOf])

theorem isValidMoveDir_parts {n : Nat} {b : List (List Int)} {pos : Pos}
    {visited : Finset Pos} (h : isValidMoveDir n b pos visited = true) :
    inB n pos = true ∧ cell b pos ≠ 1 ∧ pos ∉ visited := by
  rw [isValidMoveDir] at h
  simp only [Bool.and_eq_true, decide_eq_true_eq] at h
  exact ⟨h.1.1, h.1.2, h.2⟩

/-- Well-formedness of every path returned by the greedy direction-scored
loop. -/
theorem solveDirAux_wf (score : List Int → Nat → ℚ) (n : Nat) (b : List (List Int))
    (s e : Pos) :
    ∀ (fuel : Nat) (current : Pos) (path : List Pos) (visited : Finset Pos)
      (sol : List Pos),
      path.head? = some s → path.getLast? = some current →
      List.Chain' (fun p q => adjB p q = true) path → path.Nodup →
      (∀ c ∈ path, c ∈ visited) → (∀ c ∈ path.tail, legalCell b n c = true) →
      solveDirAux score n b s e fuel current path visited = some sol →
      sol.head? = some s ∧ sol.getLast? = some e ∧
        List.Chain' (fun p q => adjB p q = true) sol ∧ sol.Nodup ∧
        (∀ c ∈ sol.tail, legalCell b n c = true) ∧ sol.length ≤ path.length + fuel := by
  intro fuel
  induction fuel with
  | zero =>
    intro current path visited sol hhead hlast hchain hnd hvis htail hsol
    rw [solveDirAux] at hsol
    split at hsol
    · next hcur =>
      cases hsol
      subst hcur
      exact ⟨hhead, hlast, hchain, hnd, htail, le_refl _⟩
    · cases hsol
  | succ fuel ih =>
    intro current path visited sol hhead hlast hchain hnd hvis htail hsol
    rw [solveDirAux] at hsol
    split at hsol
    · next hcur =>
      cases hsol
      subst hcur
      exact ⟨hhead, hlast, hchain, hnd, htail, by omega⟩
    · next hcur =>
      rcases hfind : (sortDescBy Prod.snd ((List.range 4).map fun i =>
          (i, score (createBoardState b current s e) i))).find? (fun ds =>
          isValidMoveDir n b (current.1 + (dirOf ds.1).1, current.2 + (dirOf ds.1).2) visited)
        with _ | ds
      · rw [hfind] at hsol; cases hsol
      · rw [hfind] at hsol
        have hvalid := List.find?_some hfind
        simp only [decide_eq_true_eq] at hvalid
        have hdsmem := List.mem_of_find?_eq_some hfind
        have hds4 : ds.1 < 4 := by
          have hperm := sortDescBy_perm Prod.snd ((List.range 4).map fun i =>
            (i, score (createBoardState b current s e) i))
          have := hperm.mem_iff.mp hdsmem
          obtain ⟨i, hi, rfl⟩ := List.mem_map.mp this
          simpa using List.mem_range.mp hi
        obtain ⟨hin, hwall, hnvis⟩ := isValidMoveDir_parts hvalid
        obtain ⟨h1, h2, h3, h4, h5, h6⟩ := walk_extend hhead hlast hchain hnd hvis htail
          (dirOf_adjB current hds4) (legalCell_of_parts hin hwall) hnvis
        obtain ⟨g1, g2, g3, g4, g5, g6⟩ := ih _ _ _ sol h1 h2 h3 h4 h5 h6 hsol
        refine ⟨g1, g2, g3, g4, g5, ?_⟩
        rw [List.length_append, List.length_singleton] at g6
        omega

/-! ## BFS frontier-expansion specification (C1, C10) -/

theorem bfsTryDir_fold_spec (b : List (List Int)) (n : Nat) (p : Pos) (path : List Pos) :
    ∀ (dirs : List Pos) (q0 : List (Pos × List Pos)) (v0 : Finset Pos),
      ∃ news : List (Pos × List Pos),
        dirs.foldl (bfsTryDir b n p path) (q0, v0) =
          (q0 ++ news, v0 ∪ (news.map Prod.fst).toFinset) ∧
        (news.map Prod.fst).Nodup ∧
        (∀ x ∈ news, x.1 ∉ v0 ∧ x.2 = path ++ [x.1] ∧ inB n x.1 = true ∧
          cell b x.1 ≠ 1 ∧ ∃ d ∈ dirs, x.1 = (p.1 + d.1, p.2 + d.2)) ∧
        (∀ d ∈ dirs, inB n (p.1 + d.1, p.2 + d.2) = true →
          cell b (p.1 + d.1, p.2 + d.2) ≠ 1 →
          (p.1 + d.1, p.2 + d.2) ∈ v0 ∪ (news.map Prod.fst).toFinset) := by
  intro dirs
  induction dirs with
  | nil =>
    intro q0 v0
    refine ⟨[], by simp, by simp, by simp, by simp⟩
  | cons d dirs ih =>
    intro q0 v0
    rw [List.foldl_cons]
    by_cases hc : inB n (p.1 + d.1, p.2 + d.2) = true ∧ (p.1 + d.1, p.2 + d.2) ∉ v0 ∧
        cell b (p.1 + d.1, p.2 + d.2) ≠ 1
    · have hstep : bfsTryDir b n p path (q0, v0) d =
          (q0 ++ [((p.1 + d.1, p.2 + d.2), path ++ [(p.1 + d.1, p.2 + d.2)])],
            insert (p.1 + d.1, p.2 + d.2) v0) := by
        rw [bfsTryDir, if_pos hc]
      rw [hstep]
      obtain ⟨news, heq, hnd, hprops, hcover⟩ :=
        ih (q0 ++ [((p.1 + d.1, p.2 + d.2), path ++ [(p.1 + d.1, p.2 + d.2)])])
          (insert (p.1 + d.1, p.2 + d.2) v0)
      refine ⟨((p.1 + d.1, p.2 + d.2), path ++ [(p.1 + d.1, p.2 + d.2)]) :: news, ?_, ?_, ?_, ?_⟩
      · rw [heq]
        refine Prod.ext ?_ ?_
        · show (q0 ++ [_]) ++ news = q0 ++ (_ :: news)
          rw [List.append_assoc, List.singleton_append]
        · show insert (p.1 + d.1, p.2 + d.2) v0 ∪ (news.map Prod.fst).toFinset =
            v0 ∪ (((p.1 + d.1, p.2 + d.2) :: news.map Prod.fst).toFinset)
          rw [List.toFinset_cons, Finset.insert_union, Finset.union_insert]
      · rw [List.map_cons, List.nodup_cons]
        refine ⟨?_, hnd⟩
        intro hmem
        obtain ⟨x, hx, hxeq⟩ := List.mem_map.mp hmem
        exact (hprops x hx).1 (hxeq ▸ Finset.mem_insert_self _ _)
      · intro x hx
        rcases List.mem_cons.mp hx with rfl | hx'
        · exact ⟨hc.2.1, rfl, hc.1, hc.2.2, d, List.mem_cons_self _ _, rfl⟩
        · obtain ⟨hv, hp2, hin, hcell, d', hd', hx1⟩ := hprops x hx'
          exact ⟨fun hmem => hv (Finset.mem_insert_of_mem hmem), hp2, hin, hcell,
            d', List.mem_cons_of_mem _ hd', hx1⟩
      · intro d' hd' hin hcell
        rcases List.mem_cons.mp hd' with rfl | hd''
        · rw [List.map_cons, List.toFinset_cons, Finset.union_insert]
          exact Finset.mem_insert_self _ _
        · have := hcover d' hd'' hin hcell
          rw [List.map_cons, List.toFinset_cons, Finset.union_insert]
          rcases Finset.mem_union.mp this with h | h
          · rcases Finset.mem_insert.mp h with h' | h'
            · exact Finset.mem_insert.mpr (Or.inl h')
            · exact Finset.mem_insert_of_mem (Finset.mem_union_left _ h')
          · exact Finset.mem_insert_of_mem (Finset.mem_union_right _ h)
    · have hstep : bfsTryDir b n p path (q0, v0) d = (q0, v0) := by
        rw [bfsTryDir, if_neg hc]
      rw [hstep]
      obtain ⟨news, heq, hnd, hprops, hcover⟩ := ih q0 v0
      refine ⟨news, heq, hnd, ?_, ?_⟩
      · intro x hx
        obtain ⟨hv, hp2, hin, hcell, d', hd', hx1⟩ := hprops x hx
        exact ⟨hv, hp2, hin, hcell, d', List.mem_cons_of_mem _ hd', hx1⟩
      · intro d' hd' hin hcell
        rcases List.mem_cons.mp hd' with rfl | hd''
        · have hv0 : (p.1 + d'.1, p.2 + d'.2) ∈ v0 := by
            by_contra hnv
            exact hc ⟨hin, hnv, hcell⟩
          exact Finset.mem_union_left _ hv0
        · exact hcover d' hd'' hin hcell

/-! ## Path decomposition lemmas (C1) -/

theorem bfsDirs_adjB (p : Pos) : ∀ d ∈ bfsDirs, adjB (p.1 + d.1, p.2 + d.2) p = true := by
  intro d hd
  rw [bfsDirs] at hd
  simp only [List.mem_cons, List.not_mem_nil, or_false] at hd
  rw [adjB, decide_eq_true_eq]
  rcases hd with rfl | rfl | rfl | rfl <;> (simp only []; omega)

theorem adjB_exists_dir {q p : Pos} (h : adjB q p = true) :
    ∃ d ∈ bfsDirs, q = (p.1 + d.1, p.2 + d.2) := by
  rw [adjB, decide_eq_true_eq] at h
  obtain ⟨q1, q2⟩ := q
  obtain ⟨p1, p2⟩ := p
  simp only at h
  rw [bfsDirs]
  by_cases h1 : q1 = p1
  · by_cases h2 : q2 = p2 + 1
    · exact ⟨(0, 1), by simp,
        Prod.ext (by show q1 = p1 + 0; omega) (by show q2 = p2 + 1; omega)⟩
    · exact ⟨(0, -1), by simp,
        Prod.ext (by show q1 = p1 + 0; omega) (by show q2 = p2 + -1; omega)⟩
  · by_cases h2 : q1 = p1 + 1
    · exact ⟨(1, 0), by simp,
        Prod.ext (by show q1 = p1 + 1; omega) (by show q2 = p2 + 0; omega)⟩
    · exact ⟨(-1, 0), by simp,
        Prod.ext (by show q1 = p1 + -1; omega) (by show q2 = p2 + 0; omega)⟩

theorem EntryPath_length_pos {b : List (List Int)} {n : Nat} {s t : Pos} {ps : List Pos}
    (h : EntryPath b n s t ps) : 1 ≤ ps.length := by
  obtain ⟨hh, _, _, _⟩ := h
  cases ps
  · cases hh
  · simp

theorem EntryPath_singleton {b : List (List Int)} {n : Nat} {s : Pos} :
    EntryPath b n s s [s] := by
  refine ⟨rfl, rfl, List.chain'_singleton _, ?_⟩
  intro c hc
  cases hc

theorem EntryPath_len_one {b : List (List Int)} {n : Nat} {s t : Pos} {ps : List Pos}
    (h : EntryPath b n s t ps) (hlen : ps.length ≤ 1) : t = s := by
  obtain ⟨hh, hl, _, _⟩ := h
  match ps, hh, hl with
  | [a], hh, hl =>
    simp only [List.head?_cons, Option.some.injEq] at hh
    simp only [List.getLast?_singleton, Option.some.injEq] at hl
    rw [← hh, ← hl]

theorem EntryPath_snoc {b : List (List Int)} {n : Nat} {s t np : Pos} {ps : List Pos}
    (h : EntryPath b n s t ps) (hadj : adjB t np = true)
    (hleg : legalCell b n np = true) : EntryPath b n s np (ps ++ [np]) := by
  obtain ⟨hh, hl, hc, ht⟩ := h
  have hne : ps ≠ [] := by
    intro hcon; rw [hcon] at hh; cases hh
  refine ⟨?_, List.getLast?_concat _, ?_, ?_⟩
  · rw [List.head?_append_of_ne_nil _ hne]; exact hh
  · rw [List.chain'_append]
    refine ⟨hc, List.chain'_singleton _, ?_⟩
    intro x hx y hy
    simp only [Option.mem_def] at hx hy
    rw [hl] at hx
    simp only [List.head?_cons, Option.some.injEq] at hx hy
    subst hx; subst hy
    exact hadj
  · intro c hc'
    rw [List.tail_append_of_ne_nil hne] at hc'
    rcases List.mem_append.mp hc' with h' | h'
    · exact ht c h'
    · simp only [List.mem_singleton] at h'
      subst h'
      exact hleg

theorem EntryPath_decomp {b : List (List Int)} {n : Nat} {s t : Pos} {ps : List Pos}
    (h : EntryPath b n s t ps) (hlen : 2 ≤ ps.length) :
    ∃ (ps' : List Pos) (t' : Pos), ps = ps' ++ [t] ∧ EntryPath b n s t' ps' ∧
      adjB t' t = true ∧ legalCell b n t = true ∧ ps.length = ps'.length + 1 := by
  obtain ⟨hh, hl, hc, ht⟩ := h
  have hne : ps ≠ [] := by intro hcon; subst hcon; simp at hlen
  have hsplit : ps = ps.dropLast ++ [ps.getLast hne] := (List.dropLast_append_getLast hne).symm
  have hlast : ps.getLast hne = t := by
    have := List.getLast?_eq_getLast ps hne
    rw [hl] at this
    exact (Option.some.injEq _ _ ▸ this.symm : _)
  have hdne : ps.dropLast ≠ [] := by
    intro hcon
    have := congrArg List.length hsplit
    rw [hcon] at this
    simp at this
    omega
  have hdlen : ps.dropLast.length + 1 = ps.length := by
    rw [List.length_dropLast]
    omega
  refine ⟨ps.dropLast, ps.dropLast.getLast hdne, by rw [← hlast]; exact hsplit, ?_, ?_, ?_, by omega⟩
  · refine ⟨?_, List.getLast?_eq_getLast _ hdne, ?_, ?_⟩
    · rw [hsplit, List.head?_append_of_ne_nil _ hdne] at hh
      exact hh
    · rw [hsplit, List.chain'_append] at hc
      exact hc.1
    · intro c hc'
      apply ht
      rw [hsplit, List.tail_append_of_ne_nil hdne]
      exact List.mem_append_left _ hc'
  · rw [hsplit, List.chain'_append] at hc
    have := hc.2.2 (ps.dropLast.getLast hdne) ?_ (ps.getLast hne) ?_
    · rw [hlast] at this; exact this
    · simp only [Option.mem_def]
      exact List.getLast?_eq_getLast _ hdne
    · simp
  · apply ht
    rw [hsplit, List.tail_append_of_ne_nil hdne]
    apply List.mem_append_right
    rw [hlast]
    simp

theorem closed_reach {b : List (List Int)} {n : Nat} {s : Pos} {visited : Finset Pos}
    (hs : s ∈ visited)
    (hclosed : ∀ c ∈ visited, ∀ q, adjB q c = true → legalCell b n q = true → q ∈ visited) :
    ∀ (k : Nat) (qs : List Pos) (t : Pos), qs.length ≤ k → EntryPath b n s t qs →
      t ∈ visited := by
  intro k
  induction k with
  | zero =>
    intro qs t hlen hp
    have := EntryPath_length_pos hp
    omega
  | succ k ih =>
    intro qs t hlen hp
    by_cases h1 : qs.length ≤ 1
    · rw [EntryPath_len_one hp h1]
      exact hs
    · obtain ⟨qs', t', _, hp', hadj, hleg, hlen'⟩ := EntryPath_decomp hp (by omega)
      have ht' : t' ∈ visited := ih qs' t' (by omega) hp'
      exact hclosed t' ht' t (adjB_symm hadj) hleg

theorem legalCell_parts {b : List (List Int)} {n : Nat} {p : Pos}
    (h : legalCell b n p = true) : inB n p = true ∧ cell b p ≠ 1 := by
  rw [legalCell, Bool.and_eq_true, decide_eq_true_eq] at h
  exact h

/-- The loop invariant of the BFS of `pathfind`: every queue entry holds a
shortest well-formed walk to its cell, queue path lengths are
non-decreasing and span at most two consecutive values, queued cells are
pairwise distinct and visited, fully-processed cells have all their legal
neighbours visited, every cell within the current frontier distance is
already visited, and a visited end cell is still queued (it has not been
popped, or the loop would have returned). -/
structure BfsInv (b : List (List Int)) (n : Nat) (s e : Pos)
    (queue : List (Pos × List Pos)) (visited : Finset Pos) : Prop where
  start_mem : s ∈ visited
  entry_path : ∀ ent ∈ queue, EntryPath b n s ent.1 ent.2
  entry_min : ∀ ent ∈ queue, ∀ qs, EntryPath b n s ent.1 qs → ent.2.length ≤ qs.length
  entry_nodup : ∀ ent ∈ queue, ent.2.Nodup
  entry_cells : ∀ ent ∈ queue, ∀ c ∈ ent.2, c ∈ visited
  lens : queue.Pairwise (fun x y => x.2.length ≤ y.2.length ∧ y.2.length ≤ x.2.length + 1)
  pos_vis : ∀ ent ∈ queue, ent.1 ∈ visited
  pos_nodup : (queue.map Prod.fst).Nodup
  closed : ∀ c ∈ visited, c ∉ queue.map Prod.fst →
    ∀ q, adjB q c = true → legalCell b n q = true → q ∈ visited
  level : ∀ ent, queue.head? = some ent →
    ∀ c qs, EntryPath b n s c qs → qs.length ≤ ent.2.length → c ∈ visited
  end_pending : e ∈ visited → e ∈ queue.map Prod.fst

theorem bfsInv_init (b : List (List Int)) (n : Nat) (s e : Pos) :
    BfsInv b n s e [(s, [s])] {s} := by
  refine ⟨?_, ?_, ?_, ?_, ?_, ?_, ?_, ?_, ?_, ?_, ?_⟩
  · exact Finset.mem_singleton_self s
  · intro ent hent
    rcases List.mem_singleton.mp hent with rfl
    exact EntryPath_singleton
  · intro ent hent qs hqs
    rcases List.mem_singleton.mp hent with rfl
    exact EntryPath_length_pos hqs
  · intro ent hent
    rcases List.mem_singleton.mp hent with rfl
    exact List.nodup_singleton _
  · intro ent hent c hc
    rcases List.mem_singleton.mp hent with rfl
    rcases List.mem_singleton.mp hc with rfl
    exact Finset.mem_singleton_self _
  · exact List.pairwise_singleton _ _
  · intro ent hent
    rcases List.mem_singleton.mp hent with rfl
    exact Finset.mem_singleton_self _
  · exact List.nodup_singleton _
  · intro c hc hnc q _ _
    exfalso
    apply hnc
    rcases Finset.mem_singleton.mp hc with rfl
    simp
  · intro ent hent c qs hqs hlen
    simp only [List.head?_cons, Option.some.injEq] at hent
    subst hent
    have hc : c = s := EntryPath_len_one hqs (by simpa using hlen)
    rw [hc]
    exact Finset.mem_singleton_self s
  · intro he
    rcases Finset.mem_singleton.mp he with rfl
    simp

theorem pairwise_of_mem_rel {α : Type} {r : α → α → Prop} :
    ∀ l : List α, (∀ a ∈ l, ∀ c ∈ l, r a c) → l.Pairwise r := by
  intro l
  induction l with
  | nil => intro _; exact List.Pairwise.nil
  | cons a l ih =>
    intro h
    refine List.pairwise_cons.mpr ⟨?_, ?_⟩
    · intro c hc
      exact h a (List.mem_cons_self _ _) c (List.mem_cons_of_mem _ hc)
    · exact ih fun x hx y hy =>
        h x (List.mem_cons_of_mem _ hx) y (List.mem_cons_of_mem _ hy)

/-- One BFS iteration preserves the invariant: popping `(p, path)` with
`p ≠ e` and expanding its neighbours yields a queue `rest ++ news` and a
visited set enlarged by exactly the (distinct, in-grid, fresh) new cells,
and the invariant holds for the new state. -/
theorem bfsInv_step {b : List (List Int)} {n : Nat} {s e p : Pos} {path : List Pos}
    {rest : List (Pos × List Pos)} {visited : Finset Pos}
    (hinv : BfsInv b n s e ((p, path) :: rest) visited) (hne : p ≠ e) :
    ∃ news : List (Pos × List Pos),
      bfsExpand b n p path rest visited =
        (rest ++ news, visited ∪ (news.map Prod.fst).toFinset) ∧
      BfsInv b n s e (rest ++ news) (visited ∪ (news.map Prod.fst).toFinset) ∧
      ((visited ∪ (news.map Prod.fst).toFinset) ∩ grid n).card =
        (visited ∩ grid n).card + news.length ∧
      (visited ∩ grid n).card + news.length ≤ n * n := by
  obtain ⟨news, heq, hnodupnews, hprops, hcover⟩ :=
    bfsTryDir_fold_spec b n p path bfsDirs rest visited
  set F := (news.map Prod.fst).toFinset with hF
  have hpe : EntryPath b n s p path := hinv.entry_path _ (List.mem_cons_self _ _)
  have hpmin := hinv.entry_min (p, path) (List.mem_cons_self _ _)
  have hpnodup : path.Nodup := hinv.entry_nodup _ (List.mem_cons_self _ _)
  have hpcells := hinv.entry_cells (p, path) (List.mem_cons_self _ _)
  have hfpos : 1 ≤ path.length := EntryPath_length_pos hpe
  obtain ⟨hhead_rel0, hrest_pairwise⟩ := List.pairwise_cons.mp hinv.lens
  have hhead_rel : ∀ y ∈ rest, path.length ≤ y.2.length ∧ y.2.length ≤ path.length + 1 :=
    hhead_rel0
  have hmapcons : ((p, path) :: rest).map Prod.fst = p :: rest.map Prod.fst := rfl
  have hpos_nodup' := hinv.pos_nodup
  rw [hmapcons, List.nodup_cons] at hpos_nodup'
  obtain ⟨hpnotrest, hrestfst_nodup⟩ := hpos_nodup'
  have hlevel : ∀ c qs, EntryPath b n s c qs → qs.length ≤ path.length → c ∈ visited :=
    hinv.level (p, path) rfl
  -- facts about the new entries
  have hnews_path : ∀ x ∈ news, EntryPath b n s x.1 x.2 := by
    intro x hx
    obtain ⟨hnv, hx2, hin, hcell, d, hd, hx1⟩ := hprops x hx
    have hadj : adjB x.1 p = true := by rw [hx1]; exact bfsDirs_adjB p d hd
    rw [hx2]
    exact EntryPath_snoc hpe (adjB_symm hadj) (legalCell_of_parts hin hcell)
  have hnews_len : ∀ x ∈ news, x.2.length = path.length + 1 := by
    intro x hx
    rw [(hprops x hx).2.1, List.length_append, List.length_singleton]
  have hnews_min : ∀ x ∈ news, ∀ qs, EntryPath b n s x.1 qs → x.2.length ≤ qs.length := by
    intro x hx qs hqs
    rw [hnews_len x hx]
    by_contra hcon
    push_neg at hcon
    have : x.1 ∈ visited := hlevel x.1 qs hqs (by omega)
    exact (hprops x hx).1 this
  have hF_mem : ∀ x ∈ news, x.1 ∈ F := by
    intro x hx
    rw [hF]
    exact List.mem_toFinset.mpr (List.mem_map.mpr ⟨x, hx, rfl⟩)
  have hF_src : ∀ c ∈ F, ∃ x ∈ news, x.1 = c := by
    intro c hc
    rw [hF] at hc
    obtain ⟨x, hx, rfl⟩ := List.mem_map.mp (List.mem_toFinset.mp hc)
    exact ⟨x, hx, rfl⟩
  have hadjcover : ∀ c, adjB c p = true → legalCell b n c = true → c ∈ visited ∪ F := by
    intro c hadj hleg
    obtain ⟨d, hd, rfl⟩ := adjB_exists_dir hadj
    obtain ⟨hin, hcell⟩ := legalCell_parts hleg
    exact hcover d hd hin hcell
  -- the tail of the old queue keeps its facts
  have hrest_sub : ∀ ent ∈ rest, ent ∈ (p, path) :: rest := fun ent h =>
    List.mem_cons_of_mem _ h
  have hlens_new : (rest ++ news).Pairwise
      (fun x y => x.2.length ≤ y.2.length ∧ y.2.length ≤ x.2.length + 1) := by
    rw [List.pairwise_append]
    refine ⟨hrest_pairwise, ?_, ?_⟩
    · apply pairwise_of_mem_rel
      intro x hx y hy
      have h1 := hnews_len x hx
      have h2 := hnews_len y hy
      exact ⟨by omega, by omega⟩
    · intro x hx y hy
      have hxf := hhead_rel x hx
      have hyl := hnews_len y hy
      exact ⟨by omega, by omega⟩
  have hup : ∀ y ∈ rest ++ news, y.2.length ≤ path.length + 1 := by
    intro y hy
    rcases List.mem_append.mp hy with h | h
    · exact (hhead_rel y h).2
    · rw [hnews_len y h]
  refine ⟨news, by rw [bfsExpand]; exact heq, ?_, ?_, ?_⟩
  · refine ⟨?_, ?_, ?_, ?_, ?_, ?_, ?_, ?_, ?_, ?_, ?_⟩
    · exact Finset.mem_union_left _ hinv.start_mem
    · intro ent hent
      rcases List.mem_append.mp hent with h | h
      · exact hinv.entry_path ent (hrest_sub ent h)
      · exact hnews_path ent h
    · intro ent hent
      rcases List.mem_append.mp hent with h | h
      · exact hinv.entry_min ent (hrest_sub ent h)
      · exact hnews_min ent h
    · intro ent hent
      rcases List.mem_append.mp hent with h | h
      · exact hinv.entry_nodup ent (hrest_sub ent h)
      · obtain ⟨hnv, hx2, _, _, _, _, _⟩ := hprops ent h
        rw [hx2, List.nodup_append]
        refine ⟨hpnodup, List.nodup_singleton _, ?_⟩
        intro a ha hb
        rcases List.mem_singleton.mp hb with rfl
        exact hnv (hpcells _ ha)
    · intro ent hent c hc
      rcases List.mem_append.mp hent with h | h
      · exact Finset.mem_union_left _ (hinv.entry_cells ent (hrest_sub ent h) c hc)
      · obtain ⟨hnv, hx2, _, _, _, _⟩ := hprops ent h
        rw [hx2] at hc
        rcases List.mem_append.mp hc with h' | h'
        · exact Finset.mem_union_left _ (hpcells c h')
        · rcases List.mem_singleton.mp h' with rfl
          exact Finset.mem_union_right _ (hF_mem ent h)
    · exact hlens_new
    · intro ent hent
      rcases List.mem_append.mp hent with h | h
      · exact Finset.mem_union_left _ (hinv.pos_vis ent (hrest_sub ent h))
      · exact Finset.mem_union_right _ (hF_mem ent h)
    · rw [List.map_append, List.nodup_append]
      refine ⟨hrestfst_nodup, hnodupnews, ?_⟩
      intro a ha hb
      obtain ⟨ent, hent, rfl⟩ := List.mem_map.mp ha
      obtain ⟨x, hx, hxa⟩ := List.mem_map.mp hb
      have : ent.1 ∈ visited := hinv.pos_vis ent (hrest_sub ent hent)
      rw [← hxa] at this
      exact (hprops x hx).1 this
    · intro c hc hnc q hadj hleg
      rcases Finset.mem_union.mp hc with hcv | hcF
      · by_cases hcp : c = p
        · subst hcp
          exact hadjcover q hadj hleg
        · have hcold : c ∉ ((p, path) :: rest).map Prod.fst := by
            rw [hmapcons, List.mem_cons]
            rintro (rfl | h)
            · exact hcp rfl
            · apply hnc
              rw [List.map_append]
              exact List.mem_append_left _ h
          exact Finset.mem_union_left _ (hinv.closed c hcv hcold q hadj hleg)
      · exfalso
        apply hnc
        obtain ⟨x, hx, rfl⟩ := hF_src c hcF
        rw [List.map_append]
        exact List.mem_append_right _ (List.mem_map.mpr ⟨x, hx, rfl⟩)
    · intro ent0 hent0 c qs hqs hlenq
      have hent0mem : ent0 ∈ rest ++ news :=
        List.mem_of_mem_head? (by rw [Option.mem_def]; exact hent0)
      have hent0le : ent0.2.length ≤ path.length + 1 := hup ent0 hent0mem
      by_cases hq : qs.length ≤ path.length
      · exact Finset.mem_union_left _ (hlevel c qs hqs hq)
      · have hqlen : qs.length = path.length + 1 := by omega
        obtain ⟨qs', t', hqs_eq, hqs', hadj, hleg, hlen'⟩ :=
          EntryPath_decomp hqs (by omega)
        have ht'vis : t' ∈ visited := hlevel t' qs' hqs' (by omega)
        by_cases ht'p : t' = p
        · subst ht'p
          exact hadjcover c (adjB_symm hadj) hleg
        · have ht'notrest : t' ∉ rest.map Prod.fst := by
            intro hmem
            obtain ⟨ent, hent, hentfst⟩ := List.mem_map.mp hmem
            have hmin' : ent.2.length ≤ qs'.length :=
              hinv.entry_min ent (hrest_sub ent hent) qs'
                (by rw [hentfst]; exact hqs')
            have hge : path.length ≤ ent.2.length := (hhead_rel ent hent).1
            have hentlen : ent.2.length = path.length := by omega
            obtain ⟨tail, htl⟩ : ∃ tail, rest ++ news = ent0 :: tail := by
              cases hrn : rest ++ news with
              | nil =>
                rw [hrn] at hent0
                cases hent0
              | cons a tail =>
                rw [hrn] at hent0
                simp only [List.head?_cons, Option.some.injEq] at hent0
                exact ⟨tail, by rw [hent0]⟩
            have hentmem : ent ∈ ent0 :: tail := by
              rw [← htl]
              exact List.mem_append_left _ hent
            rcases List.mem_cons.mp hentmem with heq0 | htail
            · rw [← heq0] at hlenq
              omega
            · have hpw := List.pairwise_cons.mp (htl ▸ hlens_new)
              have := (hpw.1 ent htail).1
              omega
          have ht'old : t' ∉ ((p, path) :: rest).map Prod.fst := by
            rw [hmapcons, List.mem_cons]
            rintro (h | h)
            · exact ht'p h
            · exact ht'notrest h
          exact Finset.mem_union_left _
            (hinv.closed t' ht'vis ht'old c (adjB_symm hadj) hleg)
    · intro he
      rcases Finset.mem_union.mp he with h | h
      · have := hinv.end_pending h
        rw [hmapcons, List.mem_cons] at this
        rcases this with h' | h'
        · exact absurd h'.symm hne
        · rw [List.map_append]
          exact List.mem_append_left _ h'
      · obtain ⟨x, hx, rfl⟩ := hF_src e h
        rw [List.map_append]
        exact List.mem_append_right _ (List.mem_map.mpr ⟨x, hx, rfl⟩)
  · have hFgrid : F ⊆ grid n := by
      intro c hc
      obtain ⟨x, hx, rfl⟩ := hF_src c hc
      exact mem_grid.mpr (hprops x hx).2.2.1
    have hdisj : Disjoint (visited ∩ grid n) F := by
      rw [Finset.disjoint_right]
      intro c hc
      obtain ⟨x, hx, rfl⟩ := hF_src c hc
      intro hmem
      exact (hprops x hx).1 (Finset.mem_of_mem_inter_left hmem)
    have hcardF : F.card = news.length := by
      rw [hF, List.toFinset_card_of_nodup hnodupnews, List.length_map]
    rw [Finset.union_inter_distrib_right, Finset.inter_eq_left.mpr hFgrid,
      Finset.card_union_of_disjoint hdisj, hcardF]
  · have hFgrid : F ⊆ grid n := by
      intro c hc
      obtain ⟨x, hx, rfl⟩ := hF_src c hc
      exact mem_grid.mpr (hprops x hx).2.2.1
    have hdisj : Disjoint (visited ∩ grid n) F := by
      rw [Finset.disjoint_right]
      intro c hc
      obtain ⟨x, hx, rfl⟩ := hF_src c hc
      intro hmem
      exact (hprops x hx).1 (Finset.mem_of_mem_inter_left hmem)
    have hcardF : F.card = news.length := by
      rw [hF, List.toFinset_card_of_nodup hnodupnews, List.length_map]
    have hle : ((visited ∪ F) ∩ grid n).card ≤ (grid n).card :=
      Finset.card_le_card Finset.inter_subset_right
    rw [Finset.union_inter_distrib_right, Finset.inter_eq_left.mpr hFgrid,
      Finset.card_union_of_disjoint hdisj, hcardF] at hle
    rw [card_grid] at hle
    exact hle

theorem bfsInv_empty_no_path {b : List (List Int)} {n : Nat} {s e : Pos}
    {visited : Finset Pos} (hinv : BfsInv b n s e [] visited) :
    ∀ qs, ¬ EntryPath b n s e qs := by
  intro qs hqs
  have hclosed : ∀ c ∈ visited, ∀ q, adjB q c = true → legalCell b n q = true →
      q ∈ visited := fun c hc q h1 h2 => hinv.closed c hc (by simp) q h1 h2
  have he : e ∈ visited := closed_reach hinv.start_mem hclosed qs.length qs e le_rfl hqs
  have := hinv.end_pending he
  simp at this

/-- The master lemma of the BFS loop: under the invariant and with fuel
at least the loop variant, a returned path is a well-formed, duplicate-free
walk from start to end of minimal length among all such walks, and a
`none` return means no walk from start to end exists at all. -/
theorem bfsAux_master (b : List (List Int)) (n : Nat) (s e : Pos) :
    ∀ (fuel : Nat) (queue : List (Pos × List Pos)) (visited : Finset Pos),
      BfsInv b n s e queue visited →
      queue.length + (n * n - (visited ∩ grid n).card) ≤ fuel →
      (∀ sol, bfsAux b n e fuel queue visited = some sol →
        EntryPath b n s e sol ∧ sol.Nodup ∧
          ∀ qs, EntryPath b n s e qs → sol.length ≤ qs.length) ∧
      (bfsAux b n e fuel queue visited = none → ∀ qs, ¬ EntryPath b n s e qs) := by
  intro fuel
  induction fuel with
  | zero =>
    intro queue visited hinv hfuel
    have hq : queue = [] := by
      cases queue with
      | nil => rfl
      | cons a l =>
        rw [List.length_cons] at hfuel
        omega
    subst hq
    constructor
    · intro sol hsol
      cases hsol
    · intro _
      exact bfsInv_empty_no_path hinv
  | succ fuel ih =>
    intro queue visited hinv hfuel
    cases queue with
    | nil =>
      constructor
      · intro sol hsol
        cases hsol
      · intro _
        exact bfsInv_empty_no_path hinv
    | cons ent rest =>
      obtain ⟨p, path⟩ := ent
      by_cases hpe : p = e
      · constructor
        · intro sol hsol
          rw [bfsAux, if_pos hpe] at hsol
          cases hsol
          have h1 := hinv.entry_path (p, path) (List.mem_cons_self _ _)
          have h2 := hinv.entry_nodup (p, path) (List.mem_cons_self _ _)
          have h3 := hinv.entry_min (p, path) (List.mem_cons_self _ _)
          rw [hpe] at h1 h3
          exact ⟨h1, h2, h3⟩
        · intro hn
          rw [bfsAux, if_pos hpe] at hn
          cases hn
      · obtain ⟨news, heq, hinv', hcard, hbound⟩ := bfsInv_step hinv hpe
        have hstep : bfsAux b n e (fuel + 1) ((p, path) :: rest) visited =
            bfsAux b n e fuel (rest ++ news)
              (visited ∪ (news.map Prod.fst).toFinset) := by
          rw [bfsAux, if_neg hpe]
          rw [heq]
        have hfuel' : (rest ++ news).length +
            (n * n - ((visited ∪ (news.map Prod.fst).toFinset) ∩ grid n).card) ≤ fuel := by
          rw [List.length_append, hcard]
          rw [List.length_cons] at hfuel
          omega
        obtain ⟨hsome, hnone⟩ := ih (rest ++ news)
          (visited ∪ (news.map Prod.fst).toFinset) hinv' hfuel'
        constructor
        · intro sol hsol
          rw [hstep] at hsol
          exact hsome sol hsol
        · intro hn
          rw [hstep] at hn
          exact hnone hn

/-- Top-level specification of the inline BFS of the endpoints. -/
theorem bfs_spec (b : List (List Int)) (s e : Pos) :
    (∀ sol, bfs b s e = some sol →
      EntryPath b b.length s e sol ∧ sol.Nodup ∧
        ∀ qs, EntryPath b b.length s e qs → sol.length ≤ qs.length) ∧
    (bfs b s e = none → ∀ qs, ¬ EntryPath b b.length s e qs) := by
  apply bfsAux_master b b.length s e (b.length * b.length + 1) [(s, [s])] {s}
    (bfsInv_init b b.length s e)
  rw [List.length_singleton]
  omega

/-! ## Manhattan distance bounds (C1) -/

theorem adjB_manhattan {a y c : Pos} (h : adjB a y = true) :
    manhattan a c ≤ manhattan y c + 1 := by
  rw [adjB, decide_eq_true_eq] at h
  rw [manhattan, manhattan]
  omega

theorem chain_manhattan_lb :
    ∀ (ps : List Pos) (a c : Pos),
      List.Chain' (fun p q => adjB p q = true) ps → ps.head? = some a →
      ps.getLast? = some c → manhattan a c + 1 ≤ ps.length := by
  intro ps
  induction ps with
  | nil => intro a c _ h _; cases h
  | cons x ps ih =>
    intro a c hchain hh hl
    simp only [List.head?_cons, Option.some.injEq] at hh
    subst hh
    cases ps with
    | nil =>
      simp only [List.getLast?_singleton, Option.some.injEq] at hl
      subst hl
      simp [manhattan]
    | cons y ps' =>
      obtain ⟨hay, hchain'⟩ := List.chain'_cons.mp hchain
      rw [List.getLast?_cons_cons] at hl
      have hih := ih y c hchain' rfl hl
      have htri := adjB_manhattan (c := c) hay
      rw [List.length_cons]
      omega

theorem mkPath_ne_nil : ∀ (fuel : Nat) (sp ep : Pos), mkPath fuel sp ep ≠ [] := by
  intro fuel sp ep
  cases fuel with
  | zero => simp [mkPath]
  | succ fuel =>
    rw [mkPath]
    split
    · simp
    · split <;> simp

theorem getLast?_cons_ne_nil {α : Type} {x : α} {l : List α} (h : l ≠ []) :
    (x :: l).getLast? = l.getLast? := by
  cases l with
  | nil => exact absurd rfl h
  | cons a l' => rw [List.getLast?_cons_cons]

theorem mkPath_spec :
    ∀ (fuel : Nat) (sp ep : Pos), manhattan sp ep ≤ fuel →
      (mkPath fuel sp ep).head? = some sp ∧ (mkPath fuel sp ep).getLast? = some ep ∧
        List.Chain' (fun p q => adjB p q = true) (mkPath fuel sp ep) ∧
        (mkPath fuel sp ep).length = manhattan sp ep + 1 ∧
        ∀ c ∈ mkPath fuel sp ep,
          min sp.1 ep.1 ≤ c.1 ∧ c.1 ≤ max sp.1 ep.1 ∧
            min sp.2 ep.2 ≤ c.2 ∧ c.2 ≤ max sp.2 ep.2 := by
  intro fuel
  induction fuel with
  | zero =>
    intro sp ep hman
    have hse : sp = ep := by
      obtain ⟨s1, s2⟩ := sp
      obtain ⟨e1, e2⟩ := ep
      rw [manhattan] at hman
      simp only at hman
      have h1 : s1 = e1 := by omega
      have h2 : s2 = e2 := by omega
      rw [h1, h2]
    subst hse
    refine ⟨rfl, rfl, List.chain'_singleton _, by simp [mkPath, manhattan], ?_⟩
    intro c hc
    rcases List.mem_singleton.mp hc with rfl
    simp
  | succ fuel ih =>
    intro sp ep hman
    rw [mkPath]
    by_cases hse : sp = ep
    · subst hse
      rw [if_pos rfl]
      refine ⟨rfl, rfl, List.chain'_singleton _, by simp [manhattan], ?_⟩
      intro c hc
      rcases List.mem_singleton.mp hc with rfl
      simp
    · rw [if_neg hse]
      by_cases hrow : sp.1 ≠ ep.1
      · rw [if_pos hrow]
        by_cases hlt : sp.1 < ep.1
        · rw [if_pos hlt]
          have hmn : manhattan (sp.1 + 1, sp.2) ep + 1 = manhattan sp ep := by
            rw [manhattan, manhattan]
            simp only
            omega
          obtain ⟨rh, rl, rc, rlen, rbnd⟩ := ih (sp.1 + 1, sp.2) ep (by omega)
          have hne := mkPath_ne_nil fuel (sp.1 + 1, sp.2) ep
          refine ⟨by simp, by rw [getLast?_cons_ne_nil hne]; exact rl, ?_,
            by rw [List.length_cons, rlen]; omega, ?_⟩
          · rw [List.chain'_cons']
            refine ⟨?_, rc⟩
            intro y hy
            simp only [Option.mem_def] at hy
            rw [rh] at hy
            cases hy
            rw [adjB, decide_eq_true_eq]
            simp only
            omega
          · intro c hc
            rcases List.mem_cons.mp hc with rfl | hc'
            · refine ⟨?_, ?_, ?_, ?_⟩ <;> omega
            · obtain ⟨b1, b2, b3, b4⟩ := rbnd c hc'
              simp only at b1 b2 b3 b4
              refine ⟨?_, ?_, ?_, ?_⟩ <;> omega
        · rw [if_neg hlt]
          have hmn : manhattan (sp.1 + -1, sp.2) ep + 1 = manhattan sp ep := by
            rw [manhattan, manhattan]
            simp only
            omega
          obtain ⟨rh, rl, rc, rlen, rbnd⟩ := ih (sp.1 + -1, sp.2) ep (by omega)
          have hne := mkPath_ne_nil fuel (sp.1 + -1, sp.2) ep
          refine ⟨by simp, by rw [getLast?_cons_ne_nil hne]; exact rl, ?_,
            by rw [List.length_cons, rlen]; omega, ?_⟩
          · rw [List.chain'_cons']
            refine ⟨?_, rc⟩
            intro y hy
            simp only [Option.mem_def] at hy
            rw [rh] at hy
            cases hy
            rw [adjB, decide_eq_true_eq]
            simp only
            omega
          · intro c hc
            rcases List.mem_cons.mp hc with rfl | hc'
            · refine ⟨?_, ?_, ?_, ?_⟩ <;> omega
            · obtain ⟨b1, b2, b3, b4⟩ := rbnd c hc'
              simp only at b1 b2 b3 b4
              refine ⟨?_, ?_, ?_, ?_⟩ <;> omega
      · rw [if_neg hrow]
        push_neg at hrow
        by_cases hlt : sp.2 < ep.2
        · rw [if_pos hlt]
          have hmn : manhattan (sp.1, sp.2 + 1) ep + 1 = manhattan sp ep := by
            rw [manhattan, manhattan]
            simp only
            omega
          obtain ⟨rh, rl, rc, rlen, rbnd⟩ := ih (sp.1, sp.2 + 1) ep (by omega)
          have hne := mkPath_ne_nil fuel (sp.1, sp.2 + 1) ep
          refine ⟨by simp, by rw [getLast?_cons_ne_nil hne]; exact rl, ?_,
            by rw [List.length_cons, rlen]; omega, ?_⟩
          · rw [List.chain'_cons']
            refine ⟨?_, rc⟩
            intro y hy
            simp only [Option.mem_def] at hy
            rw [rh] at hy
            cases hy
            rw [adjB, decide_eq_true_eq]
            simp only
            omega
          · intro c hc
            rcases List.mem_cons.mp hc with rfl | hc'
            · refine ⟨?_, ?_, ?_, ?_⟩ <;> omega
            · obtain ⟨b1, b2, b3, b4⟩ := rbnd c hc'
              simp only at b1 b2 b3 b4
              refine ⟨?_, ?_, ?_, ?_⟩ <;> omega
        · rw [if_neg hlt]
          have hcol : sp.2 ≠ ep.2 := by
            intro hcon
            exact hse (Prod.ext hrow hcon)
          have hmn : manhattan (sp.1, sp.2 + -1) ep + 1 = manhattan sp ep := by
            rw [manhattan, manhattan]
            simp only
            omega
          obtain ⟨rh, rl, rc, rlen, rbnd⟩ := ih (sp.1, sp.2 + -1) ep (by omega)
          have hne := mkPath_ne_nil fuel (sp.1, sp.2 + -1) ep
          refine ⟨by simp, by rw [getLast?_cons_ne_nil hne]; exact rl, ?_,
            by rw [List.length_cons, rlen]; omega, ?_⟩
          · rw [List.chain'_cons']
            refine ⟨?_, rc⟩
            intro y hy
            simp only [Option.mem_def] at hy
            rw [rh] at hy
            cases hy
            rw [adjB, decide_eq_true_eq]
            simp only
            omega
          · intro c hc
            rcases List.mem_cons.mp hc with rfl | hc'
            · refine ⟨?_, ?_, ?_, ?_⟩ <;> omega
            · obtain ⟨b1, b2, b3, b4⟩ := rbnd c hc'
              simp only at b1 b2 b3 b4
              refine ⟨?_, ?_, ?_, ?_⟩ <;> omega

theorem EntryPath_last_mem {b : List (List Int)} {n : Nat} {s t : Pos} {ps : List Pos}
    (h : EntryPath b n s t ps) : t = s ∨ t ∈ ps.tail := by
  obtain ⟨hh, hl, _, _⟩ := h
  cases ps with
  | nil => cases hh
  | cons x l =>
    simp only [List.head?_cons, Option.some.injEq] at hh
    subst hh
    cases l with
    | nil =>
      left
      simp only [List.getLast?_singleton, Option.some.injEq] at hl
      exact hl.symm
    | cons y l' =>
      right
      rw [List.getLast?_cons_cons] at hl
      have hmem : t ∈ (y :: l').getLast? := by rw [Option.mem_def]; exact hl
      obtain ⟨hne, rfl⟩ := List.mem_getLast?_eq_getLast hmem
      exact List.getLast_mem hne

theorem EntryPath_legal_end {b : List (List Int)} {n : Nat} {s t : Pos} {ps : List Pos}
    (h : EntryPath b n s t ps) (hs : legalCell b n s = true) :
    legalCell b n t = true := by
  rcases EntryPath_last_mem h with rfl | hmem
  · exact hs
  · exact h.2.2.2 t hmem

/-! ## C1 — shortest paths by breadth-first search -/

/-- C1, confirmed.  For every board whose start and end are connected by
a path of legal moves: the endpoints' BFS succeeds and returns a legal
start-to-end path whose cell count is minimal among all legal start-to-end
paths — in particular at most the length of any path found by either
greedy policy (run with the same board side, as `pathfind-model` does) —
and on a board with no walls at all the returned path's length is exactly
the Manhattan distance between start and end plus one. -/
theorem C1_bfs_shortest (b : List (List Int)) (s e : Pos)
    (hconn : ∃ qs, IsPath b b.length s e qs) :
    ∃ sol, bfs b s e = some sol ∧ IsPath b b.length s e sol ∧
      (∀ qs, IsPath b b.length s e qs → sol.length ≤ qs.length) ∧
      (∀ score maxSteps p, solveCell score b.length b s e maxSteps = some p →
        sol.length ≤ p.length) ∧
      (∀ score maxSteps p, solveDir score b.length b s e maxSteps = some p →
        sol.length ≤ p.length) ∧
      ((∀ q : Pos, inB b.length q = true → cell b q ≠ 1) →
        sol.length = manhattan s e + 1) := by
  obtain ⟨qs0, hq0ep, hq0s⟩ := hconn
  obtain ⟨hsome, hnone⟩ := bfs_spec b s e
  cases hbfs : bfs b s e with
  | none => exact absurd hq0ep (hnone hbfs qs0)
  | some sol =>
    obtain ⟨hep, hnd, hmin⟩ := hsome sol hbfs
    refine ⟨sol, rfl, ⟨hep, hq0s⟩, ?_, ?_, ?_, ?_⟩
    · intro qs hqs
      exact hmin qs hqs.1
    · intro score maxSteps p hp
      obtain ⟨g1, g2, g3, _, g5, _⟩ := solveCellAux_wf score b.length b s e maxSteps s [s]
        {s} p rfl rfl (List.chain'_singleton _) (List.nodup_singleton _)
        (by intro c hc; rcases List.mem_singleton.mp hc with rfl;
            exact Finset.mem_singleton_self _)
        (by intro c hc; cases hc) hp
      exact hmin p ⟨g1, g2, g3, g5⟩
    · intro score maxSteps p hp
      obtain ⟨g1, g2, g3, _, g5, _⟩ := solveDirAux_wf score b.length b s e maxSteps s [s]
        {s} p rfl rfl (List.chain'_singleton _) (List.nodup_singleton _)
        (by intro c hc; rcases List.mem_singleton.mp hc with rfl;
            exact Finset.mem_singleton_self _)
        (by intro c hc; cases hc) hp
      exact hmin p ⟨g1, g2, g3, g5⟩
    · intro hnowall
      have hs_in : inB b.length s = true := (legalCell_parts hq0s).1
      have he_leg : legalCell b b.length e = true := EntryPath_legal_end hq0ep hq0s
      have he_in : inB b.length e = true := (legalCell_parts he_leg).1
      obtain ⟨mh, ml, mc, mlen, mbnd⟩ := mkPath_spec (manhattan s e) s e le_rfl
      have hPleg : ∀ c ∈ mkPath (manhattan s e) s e, legalCell b b.length c = true := by
        intro c hc
        obtain ⟨b1, b2, b3, b4⟩ := mbnd c hc
        have hcin : inB b.length c = true := by
          rw [inB] at hs_in he_in ⊢
          simp only [Bool.and_eq_true, decide_eq_true_eq] at hs_in he_in ⊢
          omega
        exact legalCell_of_parts hcin (hnowall c hcin)
      have hPentry : EntryPath b b.length s e (mkPath (manhattan s e) s e) := by
        refine ⟨mh, ml, mc, ?_⟩
        intro c hc
        exact hPleg c (List.mem_of_mem_tail hc)
      have hupper : sol.length ≤ manhattan s e + 1 := by
        have := hmin _ hPentry
        rw [mlen] at this
        exact this
      have hlower : manhattan s e + 1 ≤ sol.length :=
        chain_manhattan_lb sol s e hep.2.2.1 hep.1 hep.2.1
      omega

/-- C1, witness: the theorem applied to the concrete scenario board with
its explicit connecting path. -/
theorem C1_witness :
    IsPath pathfindBoard 4 (1, 0) (2, 3) [(1, 0), (1, 1), (2, 1), (2, 2), (2, 3)] ∧
      ∃ sol, bfs pathfindBoard (1, 0) (2, 3) = some sol ∧
        IsPath pathfindBoard pathfindBoard.length (1, 0) (2, 3) sol ∧
        (∀ qs, IsPath pathfindBoard pathfindBoard.length (1, 0) (2, 3) qs →
          sol.length ≤ qs.length) ∧
        (∀ score maxSteps p,
          solveCell score pathfindBoard.length pathfindBoard (1, 0) (2, 3) maxSteps = some p →
          sol.length ≤ p.length) ∧
        (∀ score maxSteps p,
          solveDir score pathfindBoard.length pathfindBoard (1, 0) (2, 3) maxSteps = some p →
          sol.length ≤ p.length) ∧
        ((∀ q : Pos, inB pathfindBoard.length q = true → cell pathfindBoard q ≠ 1) →
          sol.length = manhattan (1, 0) (2, 3) + 1) :=
  ⟨by decide, C1_bfs_shortest pathfindBoard (1, 0) (2, 3)
    ⟨[(1, 0), (1, 1), (2, 1), (2, 2), (2, 3)], by decide⟩⟩

/-! ## C10 — well-formedness of every returned path -/

/-- C10, confirmed.  Every path returned by any of the three solver
policies starts at the start cell, ends at the end cell, moves only
between cardinally adjacent cells, repeats no cell, and contains no wall
after its first cell; a path returned by either greedy policy contains at
most `max_steps + 1` cells. -/
theorem C10_wellformed :
    (∀ (b : List (List Int)) (s e : Pos) (sol : List Pos), bfs b s e = some sol →
      sol.head? = some s ∧ sol.getLast? = some e ∧
        List.Chain' (fun p q => adjB p q = true) sol ∧ sol.Nodup ∧
        ∀ c ∈ sol.tail, legalCell b b.length c = true) ∧
      (∀ (score : List Int → Int → ℚ) (n : Nat) (b : List (List Int)) (s e : Pos)
        (maxSteps : Nat) (sol : List Pos), solveCell score n b s e maxSteps = some sol →
        sol.head? = some s ∧ sol.getLast? = some e ∧
          List.Chain' (fun p q => adjB p q = true) sol ∧ sol.Nodup ∧
          (∀ c ∈ sol.tail, legalCell b n c = true) ∧ sol.length ≤ maxSteps + 1) ∧
      (∀ (score : List Int → Nat → ℚ) (n : Nat) (b : List (List Int)) (s e : Pos)
        (maxSteps : Nat) (sol : List Pos), solveDir score n b s e maxSteps = some sol →
        sol.head? = some s ∧ sol.getLast? = some e ∧
          List.Chain' (fun p q => adjB p q = true) sol ∧ sol.Nodup ∧
          (∀ c ∈ sol.tail, legalCell b n c = true) ∧ sol.length ≤ maxSteps + 1) := by
  refine ⟨?_, ?_, ?_⟩
  · intro b s e sol hsol
    obtain ⟨hsome, _⟩ := bfs_spec b s e
    obtain ⟨hep, hnd, _⟩ := hsome sol hsol
    exact ⟨hep.1, hep.2.1, hep.2.2.1, hnd, hep.2.2.2⟩
  · intro score n b s e maxSteps sol hsol
    obtain ⟨g1, g2, g3, g4, g5, g6⟩ := solveCellAux_wf score n b s e maxSteps s [s] {s} sol
      rfl rfl (List.chain'_singleton _) (List.nodup_singleton _)
      (by intro c hc; rcases List.mem_singleton.mp hc with rfl;
          exact Finset.mem_singleton_self _)
      (by intro c hc; cases hc) hsol
    exact ⟨g1, g2, g3, g4, g5, by rw [List.length_singleton] at g6; omega⟩
  · intro score n b s e maxSteps sol hsol
    obtain ⟨g1, g2, g3, g4, g5, g6⟩ := solveDirAux_wf score n b s e maxSteps s [s] {s} sol
      rfl rfl (List.chain'_singleton _) (List.nodup_singleton _)
      (by intro c hc; rcases List.mem_singleton.mp hc with rfl;
          exact Finset.mem_singleton_self _)
      (by intro c hc; cases hc) hsol
    exact ⟨g1, g2, g3, g4, g5, by rw [List.length_singleton] at g6; omega⟩

/-- C10, witness: the BFS clause applied to the concrete scenario board,
and the two greedy clauses applied to a trivial one-cell solve. -/
theorem C10_witness :
    (bfs pathfindBoard (1, 0) (2, 3) = some [(1, 0), (1, 1), (2, 1), (2, 2), (2, 3)] ∧
      ([(1, 0), (1, 1), (2, 1), (2, 2), (2, 3)] : List Pos).head? = some (1, 0) ∧
      ([(1, 0), (1, 1), (2, 1), (2, 2), (2, 3)] : List Pos).getLast? = some (2, 3) ∧
      List.Chain' (fun p q => adjB p q = true)
        [(1, 0), (1, 1), (2, 1), (2, 2), (2, 3)] ∧
      ([(1, 0), (1, 1), (2, 1), (2, 2), (2, 3)] : List Pos).Nodup ∧
      ∀ c ∈ ([(1, 0), (1, 1), (2, 1), (2, 2), (2, 3)] : List Pos).tail,
        legalCell pathfindBoard pathfindBoard.length c = true) ∧
    (solveCell (fun _ _ => 0) 1 [[2]] (0, 0) (0, 0) 0 = some [(0, 0)] ∧
      ([(0, 0)] : List Pos).length ≤ 0 + 1) ∧
    (solveDir (fun _ _ => 0) 1 [[2]] (0, 0) (0, 0) 0 = some [(0, 0)] ∧
      ([(0, 0)] : List Pos).length ≤ 0 + 1) :=
  ⟨⟨by decide, C10_wellformed.1 pathfindBoard (1, 0) (2, 3) _ (by decide)⟩,
    ⟨rfl, (C10_wellformed.2.1 (fun _ _ => 0) 1 [[2]] (0, 0) (0, 0) 0 [(0, 0)] rfl).2.2.2.2.2⟩,
    ⟨rfl, (C10_wellformed.2.2 (fun _ _ => 0) 1 [[2]] (0, 0) (0, 0) 0 [(0, 0)] rfl).2.2.2.2.2⟩⟩
